import Mathlib

/-!
Verification of the MetroPlan pathfinding core: a shallow embedding of the
backend JavaScript services (timeUtils.js, pathfindingService.js, the
validation middleware, config and the pathfinding router) and of the
frontend TypeScript port (find_paths_dfs.ts), together with theorems about
the embedded functions.

JavaScript strings are modelled as Lean `String`s; helper functions below
re-implement the JS string primitives used by the source (split, padStart,
Number, trim) by structural recursion over the character list so that all
definitions evaluate inside the kernel.
-/

namespace MetroPlan

/-- Splits a character list at every occurrence of the separator, keeping
empty segments, as JS `String.prototype.split` does for a one-character
separator. -/
def splitCharsOn (sep : Char) : List Char → List (List Char)
  | [] => [[]]
  | c :: cs =>
      match splitCharsOn sep cs with
      | [] => [[]]
      | seg :: segs => if c = sep then [] :: seg :: segs else (c :: seg) :: segs

/-- Model of JS `s.split(sep)` for a single-character separator. -/
def jsSplit (sep : Char) (s : String) : List String :=
  (splitCharsOn sep s.data).map String.mk

/-- Decimal value of an ASCII digit, if the character is one. -/
def digitVal? (c : Char) : Option Nat :=
  if '0' ≤ c ∧ c ≤ '9' then some (c.toNat - '0'.toNat) else none

/-- Reads a string of decimal digits left to right. -/
def digitsVal : List Char → Option Nat
  | [] => none
  | cs => go cs 0
where
  go : List Char → Nat → Option Nat
    | [], acc => some acc
    | c :: cs, acc =>
        match digitVal? c with
        | some d => go cs (acc * 10 + d)
        | none => none

/-- Model of JS `Number(s)` restricted to the strings that occur in this
code base: the empty string converts to 0, a plain digit string to its
value; everything else converts to NaN, modelled as `none`. -/
def jsNumber (s : String) : Option Int :=
  if s = "" then some 0
  else (digitsVal s.data).map Int.ofNat

/-- Model of JS `String(n).padStart(2, '0')`. -/
def jsPad2 (s : String) : String :=
  if s.length < 2 then String.mk (List.replicate (2 - s.length) '0') ++ s else s

/-- Left/right whitespace trim, as JS `String.prototype.trim` on ASCII
whitespace. -/
def jsTrim (s : String) : String :=
  String.mk (((s.data.dropWhile Char.isWhitespace).reverse.dropWhile Char.isWhitespace).reverse)

/-- Embeds `parseTime` from `backend/utils/timeUtils.js`: HH:MM to minutes
since midnight, with the special case that the literal "00:00" parses to
1440 (next day).  The JS computes `Number(parts[0]) * 60 + Number(parts[1])`;
inputs on which that expression is NaN (no second component or non-digit
characters) are modelled as 0 — no such string reaches `parseTime` in the
pipeline. -/
def parseTime (timeStr : String) : Int :=
  if timeStr = "" then 0
  else if timeStr = "00:00" then 1440
  else
    let parts := jsSplit ':' timeStr
    match parts[0]?, parts[1]? with
    | some hs, some ms =>
        match jsNumber hs, jsNumber ms with
        | some h, some m => h * 60 + m
        | _, _ => 0
    | _, _ => 0

/-- Embeds `toTime` from `backend/utils/timeUtils.js`: minutes to an HH:MM
string.  JS `%` is truncating remainder (`Int.tmod`) and `Math.floor` of a
quotient is flooring division (`Int.fdiv`). -/
def toTime (totalMinutes : Int) : String :=
  let minutes := Int.tmod totalMinutes 1440
  let hours := Int.fdiv minutes 60
  let mins := Int.tmod minutes 60
  jsPad2 hours.repr ++ ":" ++ jsPad2 mins.repr

/-- Embeds `timeDifference` from `backend/utils/timeUtils.js`. -/
def timeDifference (startTime endTime : Int) : Int :=
  let diff := endTime - startTime
  if diff < 0 then diff + 1440 else diff

/-- Embeds `formatDuration` from `backend/utils/timeUtils.js`. -/
def formatDuration (minutes : Int) : String :=
  (Int.fdiv minutes 60).repr ++ "h " ++ (Int.tmod minutes 60).repr ++ "m"

example : parseTime "08:30" = 510 := by decide
example : parseTime "00:00" = 1440 := by decide
example : toTime 510 = "08:30" := by decide
example : toTime 0 = "00:00" := by decide
example : toTime 1500 = "01:00" := by decide
example : formatDuration 70 = "1h 10m" := by decide
example : jsTrim "  ab c " = "ab c" := by decide

/-- A graph node `[station, train, time]` from `fast_graph.json`; the JS
represents it as a three-element array. -/
structure NodeEntry where
  station : String
  train : String
  time : String
deriving DecidableEq, Repr

instance : Inhabited NodeEntry := ⟨⟨"", "", ""⟩⟩

/-- One outbound adjacency record `{ to, type, duration }` (`to` is a Lean
token, so the field is named `toIdx`). -/
structure AdjEdge where
  toIdx : Nat
  type : String
  duration : Int
deriving DecidableEq, Repr

/-- One entry of the DFS edge history `{ from, to, type, duration }`
(`from`/`to` are node indices; named `fromIdx`/`toIdx` because `from` is a
Lean keyword). -/
structure EdgeStep where
  fromIdx : Nat
  toIdx : Nat
  type : String
  duration : Int
deriving DecidableEq, Repr

/-- A transfer record `{ station, arrival_time, departure_time, wait_minutes }`. -/
structure TransferDetail where
  station : String
  arrival_time : String
  departure_time : String
  wait_minutes : Int
deriving DecidableEq, Repr

instance : Inhabited TransferDetail := ⟨⟨"", "", "", 0⟩⟩

/-- One element of `transfer_options`: `{ step, options }`. -/
structure TransferOption where
  step : Nat
  options : List TransferDetail
deriving DecidableEq, Repr

/-- A path summary as produced by `summarizePath` and consumed by the
post-processing stages.  `id` is 0 until assigned; `transfer_options` is
`none` while the JS object lacks the field. -/
structure PathSummary where
  id : Nat
  type : String
  train_sequence : List String
  transfer_details : List TransferDetail
  departure_time : String
  arrival_time : String
  total_time : String
  total_minutes : Int
  is_fast : Bool
  transfer_count : Nat
  transfer_options : Option (List TransferOption)
deriving DecidableEq, Repr

/-- Per-train schedule info extracted by `DataService.extractTrainInfo`. -/
structure TrainEntry where
  is_fast : Bool
  directionality : Option (List Int)
deriving DecidableEq, Repr

/-- Train info mapping (`trainInfo[trainId]` object lookup). -/
abbrev TrainInfoMap : Type := String → Option TrainEntry

/-- Directionality mapping (`directionMap[trainId]` object lookup). -/
abbrev DirMap : Type := String → Option (List Int)

/-- Truthiness of a JS variable holding `null` or a string: `null` and the
empty string are falsy. -/
def jsTruthyStr : Option String → Bool
  | none => false
  | some s => s ≠ ""

/-- Lexicographic comparison of character lists by code point; `true` when
the first is strictly smaller. -/
def charsLtb : List Char → List Char → Bool
  | [], [] => false
  | [], _ :: _ => true
  | _ :: _, [] => false
  | c :: cs, d :: ds => if c.toNat < d.toNat then true else if d.toNat < c.toNat then false else charsLtb cs ds

/-- Strict string comparison; on the "HH:MM" digit strings compared by the
sort, JS `localeCompare` agrees with code-point order. -/
def jsStrLt (a b : String) : Bool := charsLtb a.data b.data

/-- The sort relation of `findAllPaths`: ascending `total_minutes`, ties
broken by `departure_time` (comparator in pathfindingService.js). -/
def pathLe (a b : PathSummary) : Prop :=
  a.total_minutes < b.total_minutes ∨
    (a.total_minutes = b.total_minutes ∧ jsStrLt b.departure_time a.departure_time = false)

instance : DecidableRel pathLe := fun a b => by
  unfold pathLe; infer_instance

namespace Backend

/-- One iteration of the timeline walk of `summarizePath`
(backend/services/pathfindingService.js): advances the timeline by the edge
duration and records a `TransferDetail` when the edge is a transfer. -/
def summarizeStep (nodes : List NodeEntry) (st : Int × List TransferDetail)
    (e : EdgeStep) : Int × List TransferDetail :=
  let prevTime := st.1
  let timeline := st.1 + e.duration
  if e.type = "transfer" then
    (timeline, st.2 ++ [{ station := (nodes.getD e.fromIdx default).station,
                          arrival_time := toTime prevTime,
                          departure_time := toTime timeline,
                          wait_minutes := e.duration }])
  else (timeline, st.2)

/-- Embeds `summarizePath` of `backend/services/pathfindingService.js`:
walks the edge history accumulating a timeline from `startTime`, records a
`TransferDetail` for every transfer edge, then builds the summary record.
The source reassigns `timeline = endTime` when the accumulated value
disagrees with the recorded end time. -/
def summarizePath (nodes : List NodeEntry) (edgeHistory : List EdgeStep)
    (trainSequence : List String) (startTime endTime : Int)
    (trainInfo : TrainInfoMap) : PathSummary :=
  let acc := edgeHistory.foldl (summarizeStep nodes) (startTime, [])
  let timeline := if acc.1 ≠ endTime then endTime else acc.1
  let transferDetails := acc.2
  let totalRaw := timeline - startTime
  let totalMinutes := if totalRaw < 0 then totalRaw + 1440 else totalRaw
  let isFast := trainSequence.any (fun trainId => ((trainInfo trainId).map (·.is_fast)).getD false)
  { id := 0,
    type := if transferDetails.length > 0 then "Transfer" else "Direct",
    train_sequence := trainSequence,
    transfer_details := transferDetails,
    departure_time := toTime startTime,
    arrival_time := toTime timeline,
    total_time := formatDuration totalMinutes,
    total_minutes := totalMinutes,
    is_fast := isFast,
    transfer_count := transferDetails.length,
    transfer_options := none }

/-- One adjacent pair of the directionality-consistency check: scans line
indices below both vector lengths for opposite non-zero entries. -/
def pairInvalid (a b : List Int) : Bool :=
  (List.range (min a.length b.length)).any fun j =>
    a.getD j 0 ≠ 0 ∧ b.getD j 0 ≠ 0 ∧ a.getD j 0 = -(b.getD j 0)

/-- The directionality-consistency loop of `findAllPaths`: walks adjacent
pairs of the train sequence; pairs with a vector absent from the map are
skipped. -/
def directionInvalid (dm : DirMap) : List String → Bool
  | t1 :: t2 :: rest =>
      (match dm t1, dm t2 with
       | some a, some b => pairInvalid a b
       | _, _ => false) || directionInvalid dm (t2 :: rest)
  | _ => false

/-- Embeds the recursive `dfs` closure of
`PathfindingService.findAllPaths`.  Recursion is driven by a fuel
parameter; the JS recursion terminates because `path` collects distinct
node indices, so any fuel of at least `nodes.length + 1` reproduces it.
Summaries are returned in emission order (the source pushes them onto
`this.paths`).  The `stats.skipped_same_station_transfers` counter does not
affect the returned paths and is not modelled. -/
def dfs (nodes : List NodeEntry) (adjacency : List (List AdjEdge))
    (endStation : String) (trainInfo : TrainInfoMap)
    (directionMap : Option DirMap) (maxTransfers : Int) (allowSame : Bool) :
    Nat → Nat → Int → Nat → List Nat → List EdgeStep → List String → Int →
    Option String → List PathSummary
  | 0, _, _, _, _, _, _, _, _ => []
  | fuel + 1, currentIdx, currentTime, transfersUsed, path, edgeHistory,
      trainSequence, startTime, lastTransferStation =>
    let stationName := (nodes.getD currentIdx default).station
    if stationName = endStation ∧ edgeHistory ≠ [] then
      let pathSummary := summarizePath nodes edgeHistory trainSequence startTime currentTime trainInfo
      match directionMap with
      | some dm =>
          if pathSummary.transfer_count > 0 ∧ directionInvalid dm pathSummary.train_sequence then []
          else [pathSummary]
      | none => [pathSummary]
    else
      (adjacency.getD currentIdx []).flatMap fun edge =>
        let neighborIdx := edge.toIdx
        if path.contains neighborIdx then []
        else
          let neighborTrain := (nodes.getD neighborIdx default).train
          let currentTrain := (nodes.getD currentIdx default).train
          if edge.duration ≤ 0 then []
          else
            let isTransferNow := edge.type = "transfer" ∨ neighborTrain ≠ currentTrain
            let transferStation : Option String := if isTransferNow then some stationName else none
            if isTransferNow ∧ allowSame = false ∧ jsTruthyStr lastTransferStation = true ∧
                transferStation = lastTransferStation then []
            else
              let nextTransfers := if isTransferNow then transfersUsed + 1 else transfersUsed
              if (nextTransfers : Int) > maxTransfers then []
              else
                let nextTrainSequence :=
                  if neighborTrain = trainSequence.getLastD "" then trainSequence
                  else trainSequence ++ [neighborTrain]
                dfs nodes adjacency endStation trainInfo directionMap maxTransfers allowSame
                  fuel neighborIdx (currentTime + edge.duration) nextTransfers
                  (path ++ [neighborIdx])
                  (edgeHistory ++ [{ fromIdx := currentIdx, toIdx := neighborIdx,
                                     type := edge.type, duration := edge.duration }])
                  nextTrainSequence startTime
                  (if isTransferNow then transferStation else lastTransferStation)

/-- Embeds `PathfindingService.findAllPaths`: runs the DFS from every node
of the start station, sorts by `(total_minutes, departure_time)` (JS
`Array.prototype.sort` is stable; modelled by stable insertion sort) and
assigns ids `1..N`. -/
def findAllPaths (nodes : List NodeEntry) (adjacency : List (List AdjEdge))
    (startStation endStation : String) (trainInfo : TrainInfoMap)
    (directionMap : Option DirMap) (maxTransfers : Int) (allowSame : Bool) :
    List PathSummary :=
  let startNodes := (nodes.enum.filter fun p => p.2.station = startStation).map (·.1)
  if startNodes = [] then []
  else
    let rawPaths := startNodes.flatMap fun startIdx =>
      let startTime := parseTime (nodes.getD startIdx default).time
      let startTrain := (nodes.getD startIdx default).train
      dfs nodes adjacency endStation trainInfo directionMap maxTransfers allowSame
        (nodes.length + 1) startIdx startTime 0 [startIdx] [] [startTrain] startTime none
    (rawPaths.insertionSort pathLe).mapIdx fun idx p => { p with id := idx + 1 }

end Backend

namespace Frontend

/-- Embeds `parseTime` of `find_paths_dfs.ts`; the TypeScript body is the
same computation as the backend function. -/
def parseTime (timeStr : String) : Int := MetroPlan.parseTime timeStr

/-- Embeds `toTime` of `find_paths_dfs.ts`: unlike the backend version it
first normalises the minutes with `((m % 1440) + 1440) % 1440` (JS `%` is
`Int.tmod`). -/
def toTime (totalMinutes : Int) : String :=
  let m := Int.tmod (Int.tmod totalMinutes 1440 + 1440) 1440
  let hours := Int.fdiv m 60
  let mins := Int.tmod m 60
  jsPad2 hours.repr ++ ":" ++ jsPad2 mins.repr

/-- One iteration of the timeline walk of the TypeScript `summarizePath`
(uses the frontend `toTime`). -/
def summarizeStep (nodes : List NodeEntry) (st : Int × List TransferDetail)
    (e : EdgeStep) : Int × List TransferDetail :=
  let prev := st.1
  let timeline := st.1 + e.duration
  if e.type = "transfer" then
    (timeline, st.2 ++ [{ station := (nodes.getD e.fromIdx default).station,
                          arrival_time := toTime prev,
                          departure_time := toTime timeline,
                          wait_minutes := e.duration }])
  else (timeline, st.2)

/-- Embeds `summarizePath` of `find_paths_dfs.ts`; the `total_time`
template literal is the same rendering as the backend `formatDuration`. -/
def summarizePath (nodes : List NodeEntry) (edgeHistory : List EdgeStep)
    (trainSequence : List String) (startTime endTime : Int)
    (trainInfo : TrainInfoMap) : PathSummary :=
  let acc := edgeHistory.foldl (summarizeStep nodes) (startTime, [])
  let timeline := if acc.1 ≠ endTime then endTime else acc.1
  let transferDetails := acc.2
  let totalRaw := timeline - startTime
  let totalMinutes := if totalRaw < 0 then totalRaw + 1440 else totalRaw
  let isFast := trainSequence.any (fun tid => ((trainInfo tid).map (·.is_fast)).getD false)
  { id := 0,
    type := if transferDetails.length > 0 then "Transfer" else "Direct",
    train_sequence := trainSequence,
    transfer_details := transferDetails,
    departure_time := toTime startTime,
    arrival_time := toTime timeline,
    total_time := (Int.fdiv totalMinutes 60).repr ++ "h " ++ (Int.tmod totalMinutes 60).repr ++ "m",
    total_minutes := totalMinutes,
    is_fast := isFast,
    transfer_count := transferDetails.length,
    transfer_options := none }

/-- Embeds the recursive `dfs` closure of the TypeScript `findAllPaths`.
Structured exactly like `Backend.dfs`; the observable differences from the
backend are (a) the last-boarded train is read through
`const lastTrain = trainSequence.length ? ... : null` and tested with
`!lastTrain`, so an empty-string train id counts as absent, and (b) the
last transfer station is compared with `lastTransferStation !== null`, so
an empty-string station name still triggers the consecutive-transfer
check.  The `stats` counter is not modelled (it does not affect `paths`). -/
def dfs (nodes : List NodeEntry) (adjacency : List (List AdjEdge))
    (endStation : String) (trainInfo : TrainInfoMap)
    (directionMap : Option DirMap) (maxTransfers : Int) (allowSame : Bool) :
    Nat → Nat → Int → Nat → List Nat → List EdgeStep → List String → Int →
    Option String → List PathSummary
  | 0, _, _, _, _, _, _, _, _ => []
  | fuel + 1, currentIdx, currentTime, transfersUsed, path, edgeHistory,
      trainSequence, startTime, lastTransferStation =>
    let stationName := (nodes.getD currentIdx default).station
    if stationName = endStation ∧ edgeHistory ≠ [] then
      let summary := summarizePath nodes edgeHistory trainSequence startTime currentTime trainInfo
      match directionMap with
      | some dm =>
          if summary.transfer_count > 0 ∧ Backend.directionInvalid dm summary.train_sequence then []
          else [summary]
      | none => [summary]
    else
      (adjacency.getD currentIdx []).flatMap fun edge =>
        let neighborIdx := edge.toIdx
        if path.contains neighborIdx then []
        else
          let neighborTrain := (nodes.getD neighborIdx default).train
          let currentTrain := (nodes.getD currentIdx default).train
          if edge.duration ≤ 0 then []
          else
            let isTransferNow := edge.type = "transfer" ∨ neighborTrain ≠ currentTrain
            let transferStation : Option String := if isTransferNow then some stationName else none
            if isTransferNow ∧ allowSame = false ∧ lastTransferStation ≠ none ∧
                transferStation = lastTransferStation then []
            else
              let nextTransfers := if isTransferNow then transfersUsed + 1 else transfersUsed
              if (nextTransfers : Int) > maxTransfers then []
              else
                let lastTrain : Option String :=
                  if trainSequence ≠ [] then some (trainSequence.getLastD "") else none
                let nextTrainSequence :=
                  if (match lastTrain with
                      | none => true
                      | some lt => lt = "" ∨ neighborTrain ≠ lt) then
                    trainSequence ++ [neighborTrain]
                  else trainSequence
                dfs nodes adjacency endStation trainInfo directionMap maxTransfers allowSame
                  fuel neighborIdx (currentTime + edge.duration) nextTransfers
                  (path ++ [neighborIdx])
                  (edgeHistory ++ [{ fromIdx := currentIdx, toIdx := neighborIdx,
                                     type := edge.type, duration := edge.duration }])
                  nextTrainSequence startTime
                  (if isTransferNow then transferStation else lastTransferStation)

/-- Embeds the TypeScript `findAllPaths` (its `paths` result; the `stats`
record is not modelled). -/
def findAllPaths (nodes : List NodeEntry) (adjacency : List (List AdjEdge))
    (startStation endStation : String) (trainInfo : TrainInfoMap)
    (directionMap : Option DirMap) (maxTransfers : Int) (allowSame : Bool) :
    List PathSummary :=
  let startNodes := (nodes.enum.filter fun p => p.2.station = startStation).map (·.1)
  if startNodes = [] then []
  else
    let rawPaths := startNodes.flatMap fun startIdx =>
      let startTime := parseTime (nodes.getD startIdx default).time
      let startTrain := (nodes.getD startIdx default).train
      dfs nodes adjacency endStation trainInfo directionMap maxTransfers allowSame
        (nodes.length + 1) startIdx startTime 0 [startIdx] [] [startTrain] startTime none
    (rawPaths.insertionSort pathLe).mapIdx fun idx p => { p with id := idx + 1 }

end Frontend

/-- The merge key: the source builds `JSON.stringify([train_sequence, type,
transferCount, departure_time, arrival_time, total_minutes])`; on these
component types stringification is injective, so the key is modelled as the
tuple itself. -/
structure MergeKey where
  train_sequence : List String
  type : String
  transferCount : Nat
  departure_time : String
  arrival_time : String
  total_minutes : Int
deriving DecidableEq, Repr

/-- One entry of the merge state: key, representative record (`base`), and
the `_transfer_option_lists` scratch field (`none` while the JS object
lacks it).  The JS keeps a `Map` plus an `orderedKeys` array; a single
insertion-ordered association list models both. -/
abbrev MergeGroup : Type := MergeKey × PathSummary × Option (List (List TransferDetail))

/-- Association-list lookup standing for `grouped.get(key)`. -/
def lookupGroup (st : List MergeGroup) (k : MergeKey) :
    Option (PathSummary × Option (List (List TransferDetail))) :=
  (st.find? fun g => g.1 = k).map (·.2)

/-- Association-list update standing for mutating the record held under an
existing key (JS `Map` keeps the original insertion position). -/
def updateGroup (st : List MergeGroup) (k : MergeKey)
    (v : PathSummary × Option (List (List TransferDetail))) : List MergeGroup :=
  st.map fun g => if g.1 = k then (k, v) else g

/-- The rows built for a first-seen entry: `t` rows, row `idx` seeded with
`transfer_details[idx]` when it exists. -/
def optRows (t : Nat) (details : List TransferDetail) : List (List TransferDetail) :=
  (List.range t).map fun idx =>
    match details[idx]? with
    | some d => [d]
    | none => []

/-- Builds the fresh option lists for a first-seen entry.  The JS loop
indexes `optionLists[idx]` without a bounds check, so more details than
rows throw a `TypeError`, modelled as `none`.  Both implementations run
this same computation. -/
def initOptionLists (t : Nat) (details : List TransferDetail) :
    Option (List (List TransferDetail)) :=
  if details.length ≤ t then some (optRows t details) else none

namespace Backend

/-- The source's `entry.transfer_count || (entry.transfer_details || []).length`:
JS `||` treats 0 as falsy. -/
def effTransferCount (entry : PathSummary) : Nat :=
  if entry.transfer_count ≠ 0 then entry.transfer_count else entry.transfer_details.length

/-- The merge key of an entry. -/
def keyOf (entry : PathSummary) : MergeKey :=
  ⟨entry.train_sequence, entry.type, effTransferCount entry,
   entry.departure_time, entry.arrival_time, entry.total_minutes⟩

/-- One dedup-push of the group-continuation loop: the source first pushes
an empty row when `idx` is past the end, then pushes the detail unless an
equal one (by stringify comparison) is present.  An index past the extended
length would still throw, modelled as `none`. -/
def addOption (lists0 : List (List TransferDetail)) (idx : Nat) (d : TransferDetail) :
    Option (List (List TransferDetail)) :=
  let lists := if lists0.length ≤ idx then lists0 ++ [[]] else lists0
  match lists.get? idx with
  | some l => some (lists.set idx (if l.contains d then l else l ++ [d]))
  | none => none

/-- Folds `addOption` over an entry's transfer details with their indices. -/
def addOptions (lists : List (List TransferDetail)) (details : List TransferDetail) :
    Option (List (List TransferDetail)) :=
  List.foldlM (fun ls p => addOption ls p.1 p.2) lists details.enum

/-- One iteration of the grouping loop of `mergePathsByTrainSequence`. -/
def mergeStep (st : List MergeGroup) (entry : PathSummary) : Option (List MergeGroup) :=
  let transferCount := effTransferCount entry
  let key := keyOf entry
  match lookupGroup st key with
  | none =>
      if transferCount > 0 then
        match initOptionLists transferCount entry.transfer_details with
        | some ol => some (st ++ [(key, entry, some ol)])
        | none => none
      else some (st ++ [(key, entry, none)])
  | some (base, scratch) =>
      if transferCount = 0 then some st
      else
        let ol0 := scratch.getD (List.replicate transferCount [])
        match addOptions ol0 entry.transfer_details with
        | some ol => some (updateGroup st key (base, some ol))
        | none => none

/-- The output pass of `mergePathsByTrainSequence`: when the scratch lists
exist, `transfer_options` is rebuilt from them with empty rows dropped and
`transfer_details` is replaced by the first option of every non-empty row
(`optionList[0]`, total here because empty rows were filtered out). -/
def finalizeGroup (g : MergeGroup) : PathSummary :=
  match g.2.2 with
  | none => g.2.1
  | some optionLists =>
      { g.2.1 with
        transfer_options := some
          ((optionLists.enum.map fun p => TransferOption.mk (p.1 + 1) p.2).filter
            fun o => o.options ≠ []),
        transfer_details := (optionLists.filter fun l => l ≠ []).map fun l => l.headD default }

/-- Embeds `PathfindingService.mergePathsByTrainSequence`.  The result is
`none` exactly when the JS would throw (an entry whose `transfer_count` is
positive but smaller than its number of transfer details). -/
def mergePathsByTrainSequence (paths : List PathSummary) : Option (List PathSummary) :=
  (List.foldlM mergeStep [] paths).map (·.map finalizeGroup)

end Backend

namespace Frontend

/-- The TypeScript `entry.transfer_count ?? entry.transfer_details.length`:
`??` only falls through on null/undefined, and the field is always present,
so the field value is used even when it is 0. -/
def effTransferCount (entry : PathSummary) : Nat := entry.transfer_count

/-- The merge key of an entry in the TypeScript port. -/
def keyOf (entry : PathSummary) : MergeKey :=
  ⟨entry.train_sequence, entry.type, effTransferCount entry,
   entry.departure_time, entry.arrival_time, entry.total_minutes⟩

/-- One dedup-push of the TypeScript continuation loop:
`if (!optionLists[idx]) optionLists[idx] = []` extends the array by one
when `idx` equals its length; a larger index would leave a hole whose later
read throws, modelled as `none` (indices arrive consecutively, so this is
unreachable). -/
def addOption (lists : List (List TransferDetail)) (idx : Nat) (d : TransferDetail) :
    Option (List (List TransferDetail)) :=
  match lists.get? idx with
  | some l => some (lists.set idx (if l.contains d then l else l ++ [d]))
  | none =>
      if idx = lists.length then some (lists ++ [[d]])
      else none

/-- Folds the TypeScript dedup-push over an entry's transfer details. -/
def addOptions (lists : List (List TransferDetail)) (details : List TransferDetail) :
    Option (List (List TransferDetail)) :=
  List.foldlM (fun ls p => addOption ls p.1 p.2) lists details.enum

/-- One iteration of the TypeScript grouping loop.  Unlike the backend
there is no `|| Array.from(...)` fallback: with a positive transfer count
and at least one detail, a missing scratch array would throw. -/
def mergeStep (st : List MergeGroup) (entry : PathSummary) : Option (List MergeGroup) :=
  let transferCount := effTransferCount entry
  let key := keyOf entry
  match lookupGroup st key with
  | none =>
      if transferCount > 0 then
        match initOptionLists transferCount entry.transfer_details with
        | some ol => some (st ++ [(key, entry, some ol)])
        | none => none
      else some (st ++ [(key, entry, none)])
  | some (base, scratch) =>
      if transferCount = 0 then some st
      else
        match entry.transfer_details with
        | [] => some st
        | _ =>
            match scratch with
            | none => none
            | some ol0 =>
                match addOptions ol0 entry.transfer_details with
                | some ol => some (updateGroup st key (base, some ol))
                | none => none

/-- The TypeScript output pass: `transfer_options` keeps every row
(including empty ones) and `transfer_details` maps `opts[0]` over all rows;
on an empty row `opts[0]` is `undefined`, modelled by the default record
(unreachable for the well-formed inputs considered in the theorems). -/
def finalizeGroup (g : MergeGroup) : PathSummary :=
  match g.2.2 with
  | none => g.2.1
  | some optionLists =>
      { g.2.1 with
        transfer_options := some
          (optionLists.enum.map fun p => TransferOption.mk (p.1 + 1) p.2),
        transfer_details := optionLists.map fun l => l.headD default }

/-- Embeds the TypeScript `mergePathsByTrainSequence`. -/
def mergePathsByTrainSequence (paths : List PathSummary) : Option (List PathSummary) :=
  (List.foldlM mergeStep [] paths).map (·.map finalizeGroup)

end Frontend

/-- Result record of `filterPathsByTimeWindow`. -/
structure FilterResult where
  paths : List PathSummary
  fastestMinutes : Int
deriving DecidableEq, Repr

/-- JS `Math.min(...)` over a spread list; the empty case gives +Infinity
in JS and sits behind an emptiness guard at the call site. -/
def jsMinList : List Int → Int
  | [] => 0
  | x :: xs => xs.foldl min x

namespace Backend

/-- Embeds `PathfindingService.filterPathsByTimeWindow`: the cutoff is the
fastest duration plus `Math.max(windowMinutes, 0)` and the comparison is
inclusive. -/
def filterPathsByTimeWindow (paths : List PathSummary) (windowMinutes : Int) : FilterResult :=
  if paths = [] then ⟨[], 0⟩
  else
    let fastestMinutes := jsMinList (paths.map (·.total_minutes))
    let cutoffMinutes := fastestMinutes + max windowMinutes 0
    ⟨paths.filter fun p => p.total_minutes ≤ cutoffMinutes, fastestMinutes⟩

end Backend

/-- Model of `parseInt(v) || fallback`: NaN (an unset or non-numeric
environment variable, modelled as `none`) and 0 are both falsy. -/
def jsIntOr (v : Option Int) (fallback : Int) : Int :=
  match v with
  | some n => if n = 0 then fallback else n
  | none => fallback

/-- The `config.algorithm` block of `backend/config/config.js`. -/
structure AlgorithmConfig where
  maxTransfers : Int
  timeWindowMinutes : Int
  allowSameStationTransfers : Bool
deriving DecidableEq, Repr

/-- Embeds the construction of `config.algorithm` from the environment:
`parseInt(process.env.MAX_TRANSFERS) || 2`,
`parseInt(process.env.TIME_WINDOW_MINUTES) || 90`,
`process.env.ALLOW_SAME_STATION_TRANSFERS === 'true'`. -/
def algorithmConfig (envMaxTransfers envTimeWindow : Option Int)
    (envAllow : Option String) : AlgorithmConfig :=
  { maxTransfers := jsIntOr envMaxTransfers 2,
    timeWindowMinutes := jsIntOr envTimeWindow 90,
    allowSameStationTransfers := envAllow = some "true" }

/-- `config.validation.maxTransfers` of `backend/config/config.js`. -/
def validationMaxTransfers : Int := 5

/-- `config.validation.maxTimeWindowMinutes` of `backend/config/config.js`. -/
def validationMaxTimeWindowMinutes : Int := 480

/-- `config.validation.minStationNameLength`. -/
def minStationNameLength : Nat := 1

/-- `config.validation.maxStationNameLength`. -/
def maxStationNameLength : Nat := 50

/-- A `POST /api/pathfinding/find` request body.  A missing or non-string
`start_station`/`end_station` is modelled by the empty string (both fail
the same falsiness check); the numeric fields are JSON integers, on which
`parseInt` is the identity. -/
structure FindRequest where
  start_station : String
  end_station : String
  max_transfers : Option Int
  window_minutes : Option Int
  allow_same_station_consecutive_transfers : Option Bool
deriving DecidableEq, Repr

/-- Outcome of the validation middleware: an early `res.status(400)` reply
naming the offending field, or `next()` with the sanitized (trimmed) body. -/
inductive ValidationOutcome where
  | reject (status : Nat) (field : String)
  | accept (sanitized : FindRequest)
deriving DecidableEq, Repr

/-- The per-parameter range test of the validation middleware:
`isNaN(parseInt(v)) || v < 0 || v > hi` on an optional integer. -/
def paramOutOfRange (v : Option Int) (hi : Int) : Bool :=
  match v with
  | some m => decide (m < 0) || decide (hi < m)
  | none => false

/-- Embeds `validatePathfindingRequest` of `backend/middleware/validation.js`:
required-field, length, distinctness and numeric-range checks, in source
order, then trimming of the station names. -/
def validatePathfindingRequest (req : FindRequest) : ValidationOutcome :=
  if req.start_station = "" then .reject 400 "start_station"
  else if req.end_station = "" then .reject 400 "end_station"
  else if req.start_station.length < minStationNameLength ∨
      maxStationNameLength < req.start_station.length then .reject 400 "start_station"
  else if req.end_station.length < minStationNameLength ∨
      maxStationNameLength < req.end_station.length then .reject 400 "end_station"
  else if jsTrim req.start_station = jsTrim req.end_station then .reject 400 "end_station"
  else if paramOutOfRange req.max_transfers validationMaxTransfers then
    .reject 400 "max_transfers"
  else if paramOutOfRange req.window_minutes validationMaxTimeWindowMinutes then
    .reject 400 "window_minutes"
  else .accept { req with start_station := jsTrim req.start_station,
                          end_station := jsTrim req.end_station }

/-- The `summary` block of a successful `POST /find` response. -/
structure FindSummary where
  raw_path_count : Nat
  window_minutes : Int
  fastest_minutes : Int
  filtered_path_count : Nat
  merged_path_count : Nat
deriving DecidableEq, Repr

/-- The `statistics.direct_paths` block. -/
structure DirectStats where
  total : Nat
  fast : Nat
  slow : Nat
deriving DecidableEq, Repr

/-- The `statistics` block (`transfer_breakdown` keys 0, 1, 2). -/
structure PathStatistics where
  direct_paths : DirectStats
  breakdown0 : Nat
  breakdown1 : Nat
  breakdown2 : Nat
deriving DecidableEq, Repr

/-- Body of a successful `POST /find` response.  The `generated_at`
timestamp is wall-clock output and is not modelled; `statistics` is absent
on the early empty-result return. -/
structure FindResponseBody where
  start_station : String
  end_station : String
  summary : FindSummary
  paths : List PathSummary
  statistics : Option PathStatistics
deriving DecidableEq, Repr

/-- The facade's possible replies to `POST /api/pathfinding/find`. -/
inductive ApiResponse where
  | badRequest (field : String)
  | serviceUnavailable
  | internalError
  | ok (body : FindResponseBody)
deriving DecidableEq, Repr

/-- Embeds the `POST /api/pathfinding/find` route of
`backend/routes/pathfinding.js` composed with its validation middleware.
The loaded snapshot (nodes, adjacency, train info, direction map) is passed
as arguments, modelling the request under an operational service (the
data-reload branch replies 503 and is outside every claim).  A merge-stage
throw surfaces through `asyncHandler` as HTTP 500. -/
def handleFind (nodes : List NodeEntry) (adjacency : List (List AdjEdge))
    (trainInfo : TrainInfoMap) (directionMap : DirMap)
    (cfg : AlgorithmConfig) (req : FindRequest) : ApiResponse :=
  match validatePathfindingRequest req with
  | .reject _ field => .badRequest field
  | .accept r =>
      let finalMaxTransfers := match r.max_transfers with
        | some v => v
        | none => cfg.maxTransfers
      let finalWindowMinutes := match r.window_minutes with
        | some v => v
        | none => cfg.timeWindowMinutes
      let finalAllowSame := match r.allow_same_station_consecutive_transfers with
        | some v => v
        | none => cfg.allowSameStationTransfers
      let allPaths := Backend.findAllPaths nodes adjacency r.start_station r.end_station
        trainInfo (some directionMap) finalMaxTransfers finalAllowSame
      if allPaths = [] then
        .ok { start_station := r.start_station, end_station := r.end_station,
              summary := { raw_path_count := 0, window_minutes := finalWindowMinutes,
                           fastest_minutes := 0, filtered_path_count := 0,
                           merged_path_count := 0 },
              paths := [], statistics := none }
      else
        let fr := Backend.filterPathsByTimeWindow allPaths finalWindowMinutes
        match Backend.mergePathsByTrainSequence fr.paths with
        | none => .internalError
        | some merged0 =>
            let merged := merged0.mapIdx fun idx p => { p with id := idx + 1 }
            let directPaths := merged.filter fun p => p.type = "Direct"
            let fastDirect := directPaths.filter fun p => p.is_fast
            let slowDirect := directPaths.filter fun p => p.is_fast = false
            .ok { start_station := r.start_station, end_station := r.end_station,
                  summary := { raw_path_count := allPaths.length,
                               window_minutes := finalWindowMinutes,
                               fastest_minutes := fr.fastestMinutes,
                               filtered_path_count := fr.paths.length,
                               merged_path_count := merged.length },
                  paths := merged,
                  statistics := some
                    { direct_paths := { total := directPaths.length,
                                        fast := fastDirect.length,
                                        slow := slowDirect.length },
                      breakdown0 := (merged.filter fun p => min p.transfer_count 2 = 0).length,
                      breakdown1 := (merged.filter fun p => min p.transfer_count 2 = 1).length,
                      breakdown2 := (merged.filter fun p => min p.transfer_count 2 = 2).length } }

instance : Inhabited PathSummary :=
  ⟨⟨0, "", [], [], "", "", "", 0, false, 0, none⟩⟩

/-- Extracts `summary.window_minutes` from a successful response. -/
def responseWindowMinutes : ApiResponse → Option Int
  | .ok body => some body.summary.window_minutes
  | _ => none

/-- Whether the facade answered HTTP 200. -/
def isOkResponse : ApiResponse → Bool
  | .ok _ => true
  | _ => false

/-- Extracts the `paths` array from a successful response. -/
def responsePaths : ApiResponse → Option (List PathSummary)
  | .ok body => some body.paths
  | _ => none

/-- Whether the validation middleware called `next()`. -/
def isAccepted : ValidationOutcome → Bool
  | .accept _ => true
  | _ => false

/-- Example graph: one direct train X→Y and a connecting train Y→Z
(spec scenario B). -/
def exNodes : List NodeEntry :=
  [⟨"X", "T1", "08:00"⟩, ⟨"Y", "T1", "08:30"⟩, ⟨"Y", "T2", "08:40"⟩, ⟨"Z", "T2", "09:10"⟩]

/-- Adjacency of `exNodes`: one travel edge per train leg plus the Y
transfer edge. -/
def exAdj : List (List AdjEdge) :=
  [[⟨1, "travel", 30⟩], [⟨2, "transfer", 10⟩], [⟨3, "travel", 30⟩], []]

/-- Train info for the example graph. -/
def exTrainInfo : TrainInfoMap := fun t =>
  if t = "T1" then some ⟨false, none⟩
  else if t = "T2" then some ⟨false, none⟩
  else none

/-- An empty direction map (no train has a vector). -/
def exDirMap : DirMap := fun _ => none

/-- Example chain A→B→C whose legs are 800 minutes each, so the summed
duration exceeds one day. -/
def exLongNodes : List NodeEntry :=
  [⟨"A", "T1", "08:00"⟩, ⟨"B", "T1", "21:20"⟩, ⟨"C", "T1", "10:40"⟩]

/-- Adjacency of `exLongNodes`. -/
def exLongAdj : List (List AdjEdge) :=
  [[⟨1, "travel", 800⟩], [⟨2, "travel", 800⟩], []]

/-- Two summaries sharing the merge key but transferring at different
stations (spec scenario C): merging them collapses the pair into one record
with two options at step 1. -/
def exMergeInput : List PathSummary :=
  [{ id := 1, type := "Transfer", train_sequence := ["T1", "T2"],
     transfer_details := [⟨"Y", "08:30", "08:40", 10⟩],
     departure_time := "08:00", arrival_time := "09:10", total_time := "1h 10m",
     total_minutes := 70, is_fast := false, transfer_count := 1, transfer_options := none },
   { id := 2, type := "Transfer", train_sequence := ["T1", "T2"],
     transfer_details := [⟨"W", "08:45", "08:55", 15⟩],
     departure_time := "08:00", arrival_time := "09:10", total_time := "1h 10m",
     total_minutes := 70, is_fast := false, transfer_count := 1, transfer_options := none }]

/-- A two-node graph whose only train id is the empty string. -/
def exEmptyTrainNodes : List NodeEntry :=
  [⟨"A", "", "08:00"⟩, ⟨"B", "", "08:30"⟩]

/-- Adjacency of `exEmptyTrainNodes`: a single travel edge of the one train. -/
def exEmptyTrainAdj : List (List AdjEdge) :=
  [[⟨1, "travel", 30⟩], []]

/-- Train info with no known trains. -/
def exNoTrainInfo : TrainInfoMap := fun _ => none

/-- C1. For every POST /path request that omits window_minutes, the spec
says the facade applies a window of 120 minutes.  The code disagrees: with
no TIME_WINDOW_MINUTES environment variable the router falls back to
`config.algorithm.timeWindowMinutes`, which defaults to 90, so the response
reports `summary.window_minutes = 90`, not 120. -/
theorem c1_default_window_is_90_not_120 :
    responseWindowMinutes
      (handleFind exNodes exAdj exTrainInfo exDirMap (algorithmConfig none none none)
        ⟨"X", "Z", none, none, none⟩) = some 90 ∧ (90 : Int) ≠ 120 := by
  constructor
  · decide
  · decide

/-- C2 (counterexample). The claim says the facade rejects any request with
max_transfers outside [0,2]; in fact the validation middleware accepts
max_transfers = 3 (its bound is `config.validation.maxTransfers = 5`). -/
theorem c2_counterexample_accepts_three :
    isAccepted (validatePathfindingRequest ⟨"X", "Z", some 3, none, none⟩) = true ∧
      ¬ ((3 : Int) ≤ 2) := by
  constructor
  · decide
  · decide

/-- C4 (counterexample). The round-trip claim fails at m = 0: formatting 0
gives "00:00", which parses back to 1440, while 0 mod 1440 = 0. -/
theorem c4_counterexample_zero :
    parseTime (toTime (0 : Int)) = 1440 ∧ (0 : Int) % 1440 = 0 ∧
      parseTime (toTime (0 : Int)) ≠ (0 : Int) % 1440 := by
  refine ⟨by decide, by decide, by decide⟩

/-- C5 (counterexample). Merging is not idempotent on the transfer_options
field: two one-transfer paths sharing the merge key but transferring at
different stations merge into one record with two options at step 1, and
re-merging that output collapses the options back to the single
representative. -/
theorem c5_counterexample_not_idempotent :
    (Backend.mergePathsByTrainSequence exMergeInput).bind Backend.mergePathsByTrainSequence ≠
      Backend.mergePathsByTrainSequence exMergeInput := by
  decide

/-- C7 (counterexample). A path whose edge durations sum to 1600 minutes is
emitted with total_minutes = 1600, while (arrival − departure) mod 1440 is
160, so the claimed equality with the wrapped clock difference fails. -/
theorem c7_counterexample_day_wrap :
    (Backend.findAllPaths exLongNodes exLongAdj "A" "C" exTrainInfo none 2 false).length = 1 ∧
    ((Backend.findAllPaths exLongNodes exLongAdj "A" "C" exTrainInfo none 2 false).headD
        default).total_minutes = 1600 ∧
    ((parseTime ((Backend.findAllPaths exLongNodes exLongAdj "A" "C" exTrainInfo none 2
          false).headD default).arrival_time -
        parseTime ((Backend.findAllPaths exLongNodes exLongAdj "A" "C" exTrainInfo none 2
          false).headD default).departure_time) % 1440) = 160 ∧
    (1600 : Int) ≠ 160 := by
  refine ⟨by decide, by decide, by decide, by decide⟩

/-- C10 (counterexample). The backend and the TypeScript port disagree on a
graph whose train id is the empty string: the TS `!lastTrain` truthiness
test treats the empty id as absent and duplicates it in train_sequence, so
the merged outputs differ. -/
theorem c10_counterexample_empty_train_id :
    Backend.mergePathsByTrainSequence
        (Backend.findAllPaths exEmptyTrainNodes exEmptyTrainAdj "A" "B" exNoTrainInfo none 2 false) ≠
      Frontend.mergePathsByTrainSequence
        (Frontend.findAllPaths exEmptyTrainNodes exEmptyTrainAdj "A" "B" exNoTrainInfo none 2 false) := by
  decide

set_option maxRecDepth 100000 in
set_option maxHeartbeats 1000000 in
/-- Bulk verification of the modular round trip over one whole day. -/
theorem parseTime_toTime_ball :
    ((List.range 1440).all fun m =>
      decide (parseTime (toTime (m : Int)) % 1440 = (m : Int) % 1440)) = true := by
  decide

/-- Modular round trip for a single minute value below 1440. -/
theorem parseTime_toTime_small (n : Nat) (h : n < 1440) :
    parseTime (toTime (n : Int)) % 1440 = (n : Int) % 1440 := by
  have hall := List.all_eq_true.mp parseTime_toTime_ball n (List.mem_range.mpr h)
  exact of_decide_eq_true hall

/-- The formatted string only depends on the minute value modulo 1440. -/
theorem toTime_emod (t : Int) (ht : 0 ≤ t) : toTime t = toTime (t % 1440) := by
  unfold toTime
  have h1 : Int.tmod t 1440 = t % 1440 := Int.tmod_eq_emod ht (by norm_num)
  have h2 : Int.tmod (t % 1440) 1440 = t % 1440 % 1440 :=
    Int.tmod_eq_emod (Int.emod_nonneg t (by norm_num)) (by norm_num)
  rw [h1, h2, Int.emod_emod_of_dvd t (dvd_refl 1440)]

/-- Modular round trip for every non-negative minute value. -/
theorem parseTime_toTime_emod (t : Int) (ht : 0 ≤ t) :
    parseTime (toTime t) % 1440 = t % 1440 := by
  rw [toTime_emod t ht]
  have hnn : 0 ≤ t % 1440 := Int.emod_nonneg t (by norm_num)
  have hlt : t % 1440 < 1440 := Int.emod_lt_of_pos t (by norm_num)
  have hcast : ((t % 1440).toNat : Int) = t % 1440 := Int.toNat_of_nonneg hnn
  have hsmall := parseTime_toTime_small (t % 1440).toNat
    ((Int.toNat_lt hnn).mpr (by exact_mod_cast hlt))
  rw [hcast] at hsmall
  rw [hsmall, Int.emod_emod_of_dvd t (dvd_refl 1440)]

/-- C4 (amended). For every m in [0, 1440], parsing the formatted time
string gives back a value congruent to m modulo 1440:
parseTime (toTime m) mod 1440 = m mod 1440 (plain equality with m mod 1440
fails at the endpoints, where the string is "00:00" and parses to 1440). -/
theorem c4_roundtrip_mod_1440 (m : Nat) (_h : m ≤ 1440) :
    parseTime (toTime (m : Int)) % 1440 = (m : Int) % 1440 :=
  parseTime_toTime_emod (m : Int) (Int.ofNat_nonneg m)

/-- Witness for C4 (amended) at m = 123. -/
theorem c4_roundtrip_mod_1440_witness :
    123 ≤ 1440 ∧ parseTime (toTime (123 : Int)) % 1440 = (123 : Int) % 1440 :=
  ⟨by decide, c4_roundtrip_mod_1440 123 (by decide)⟩

/-- A left fold with `min` never exceeds its initial value. -/
theorem foldl_min_le_init (xs : List Int) : ∀ a : Int, xs.foldl min a ≤ a := by
  induction xs with
  | nil => intro a; simp
  | cons x xs ih =>
      intro a
      simpa using le_trans (ih (min a x)) (min_le_left a x)

/-- A left fold with `min` is a lower bound of the list elements. -/
theorem foldl_min_le_mem (xs : List Int) : ∀ a : Int, ∀ y ∈ xs, xs.foldl min a ≤ y := by
  induction xs with
  | nil => intro a y hy; simp at hy
  | cons x xs ih =>
      intro a y hy
      rcases List.mem_cons.mp hy with h | h
      · subst h
        simpa using le_trans (foldl_min_le_init xs (min a y)) (min_le_right a y)
      · simpa using ih (min a x) y h

/-- A left fold with `min` is the initial value or one of the elements. -/
theorem foldl_min_mem (xs : List Int) : ∀ a : Int, xs.foldl min a = a ∨ xs.foldl min a ∈ xs := by
  induction xs with
  | nil => intro a; left; rfl
  | cons x xs ih =>
      intro a
      rcases ih (min a x) with h | h
      · rcases min_cases a x with ⟨hmin, _⟩ | ⟨hmin, _⟩
        · left; simpa [hmin] using h
        · right; simp only [List.foldl]; rw [h, hmin]; exact List.mem_cons_self x xs
      · right; exact List.mem_cons_of_mem x (by simpa using h)

/-- The fastest duration of a non-empty path list is attained by a member. -/
theorem jsMinList_attained (xs : List Int) (h : xs ≠ []) : jsMinList xs ∈ xs := by
  match xs, h with
  | x :: xs, _ =>
      rcases foldl_min_mem xs x with h1 | h1
      · rw [jsMinList, h1]; exact List.mem_cons_self x xs
      · exact List.mem_cons_of_mem x (by simpa [jsMinList] using h1)

/-- The fastest duration is a lower bound of the list. -/
theorem jsMinList_le (xs : List Int) : ∀ y ∈ xs, jsMinList xs ≤ y := by
  match xs with
  | [] => intro y hy; simp at hy
  | x :: xs =>
      intro y hy
      rcases List.mem_cons.mp hy with h | h
      · subst h; exact foldl_min_le_init xs y
      · exact foldl_min_le_mem xs x y h

/-- C8. On a non-empty list, the window filter keeps exactly the paths
whose total_minutes is at most the minimum total plus max(window_minutes,0):
membership in the filtered output is equivalent to being within
max(window_minutes, 0) of every path's total (equivalently, of the
minimum).  The bound is inclusive and a negative window behaves as zero. -/
theorem c8_window_filter (ps : List PathSummary) (w : Int) (hne : ps ≠ []) :
    ∀ p, p ∈ (Backend.filterPathsByTimeWindow ps w).paths ↔
      (p ∈ ps ∧ ∀ q ∈ ps, p.total_minutes ≤ q.total_minutes + max w 0) := by
  intro p
  unfold Backend.filterPathsByTimeWindow
  rw [if_neg hne]
  simp only [List.mem_filter, decide_eq_true_eq]
  constructor
  · rintro ⟨hmem, hle⟩
    refine ⟨hmem, fun q hq => le_trans hle ?_⟩
    have : jsMinList (ps.map (·.total_minutes)) ≤ q.total_minutes :=
      jsMinList_le _ _ (List.mem_map.mpr ⟨q, hq, rfl⟩)
    omega
  · rintro ⟨hmem, hall⟩
    refine ⟨hmem, ?_⟩
    have hat : jsMinList (ps.map (·.total_minutes)) ∈ ps.map (·.total_minutes) :=
      jsMinList_attained _ (by simpa using hne)
    rcases List.mem_map.mp hat with ⟨q, hq, hqeq⟩
    have := hall q hq
    omega

/-- Witness for C8 on three concrete paths with totals 60, 180 and 181 and
window 120: the boundary path (total 180 = 60 + 120) is kept. -/
theorem c8_window_filter_witness :
    ({ (default : PathSummary) with total_minutes := 180 }) ∈
      (Backend.filterPathsByTimeWindow
        [{ (default : PathSummary) with total_minutes := 60 },
         { (default : PathSummary) with total_minutes := 180 },
         { (default : PathSummary) with total_minutes := 181 }] 120).paths := by
  have h := c8_window_filter
    [{ (default : PathSummary) with total_minutes := 60 },
     { (default : PathSummary) with total_minutes := 180 },
     { (default : PathSummary) with total_minutes := 181 }] 120 (by decide)
    { (default : PathSummary) with total_minutes := 180 }
  exact h.mpr (by decide)

/-- C2 (amended). For a request that is otherwise valid (it passes
validation when max_transfers is omitted), supplying max_transfers accepts
exactly the integers in [0, 5] — the middleware bound is
`config.validation.maxTransfers = 5`, not the spec's 2 — and any value
outside [0, 5] is rejected with HTTP 400 naming the max_transfers field,
before the route handler (and hence the enumerator) runs. -/
theorem c2_max_transfers_bound (req : FindRequest) (m : Int)
    (hbase : isAccepted (validatePathfindingRequest { req with max_transfers := none }) = true) :
    (isAccepted (validatePathfindingRequest { req with max_transfers := some m }) = true ↔
      0 ≤ m ∧ m ≤ 5) ∧
    ((m < 0 ∨ 5 < m) →
      validatePathfindingRequest { req with max_transfers := some m } =
        ValidationOutcome.reject 400 "max_transfers") := by
  simp only [validatePathfindingRequest, isAccepted] at hbase ⊢
  split_ifs at hbase with h1 h2 h3 h4 h5 h6 h7 <;>
      simp_all [paramOutOfRange, validationMaxTransfers]
  have hs : ¬(req.start_station.length < minStationNameLength ∨
      maxStationNameLength < req.start_station.length) := by omega
  have he : ¬(req.end_station.length < minStationNameLength ∨
      maxStationNameLength < req.end_station.length) := by omega
  by_cases hm : m < 0 ∨ 5 < m
  · have hnot : ¬(0 ≤ m ∧ m ≤ 5) := by omega
    simp only [if_neg hs, if_neg he, if_pos hm]
    exact ⟨by simp [hnot], fun _ => trivial⟩
  · have hyes : 0 ≤ m ∧ m ≤ 5 := by omega
    simp only [if_neg hs, if_neg he, if_neg hm]
    exact ⟨by simp [hyes], fun hc => absurd hc hm⟩

/-- Witness for C2 (amended): the base request ⟨"X","Z"⟩ is accepted, and at
max_transfers = 4 the characterization yields acceptance with 0 ≤ 4 ≤ 5. -/
theorem c2_max_transfers_bound_witness :
    isAccepted (validatePathfindingRequest
      { start_station := "X", end_station := "Z", max_transfers := some 4,
        window_minutes := none, allow_same_station_consecutive_transfers := none }) = true :=
  ((c2_max_transfers_bound
    { start_station := "X", end_station := "Z", max_transfers := none,
      window_minutes := none, allow_same_station_consecutive_transfers := none } 4
    (by decide)).1).mpr (by decide)

/-- The payload of an enum entry is a member of the underlying list. -/
theorem enum_snd_mem {α : Type} {l : List α} {p : Nat × α} (hp : p ∈ l.enum) : p.2 ∈ l := by
  rw [List.enum_eq_zip_range] at hp
  exact (List.of_mem_zip (show (p.1, p.2) ∈ _ from hp)).2

/-- When no node carries the requested end station (and the station name is
non-empty, so it cannot match the out-of-range default node either), the
DFS emits nothing from any state. -/
theorem dfs_end_absent (nodes : List NodeEntry) (adjacency : List (List AdjEdge))
    (endStation : String) (trainInfo : TrainInfoMap) (directionMap : Option DirMap)
    (maxTransfers : Int) (allowSame : Bool)
    (hend : ∀ n ∈ nodes, n.station ≠ endStation) (hne : endStation ≠ "") :
    ∀ fuel i t tr path eh tseq st lts,
      Backend.dfs nodes adjacency endStation trainInfo directionMap maxTransfers allowSame
        fuel i t tr path eh tseq st lts = [] := by
  intro fuel
  induction fuel with
  | zero => intro i t tr path eh tseq st lts; rfl
  | succ fuel ih =>
      intro i t tr path eh tseq st lts
      rw [Backend.dfs]
      have hst : ¬((nodes.getD i default).station = endStation ∧ eh ≠ []) := by
        rintro ⟨habs, -⟩
        by_cases hlt : i < nodes.length
        · exact hend _ (List.getD_eq_getElem nodes default hlt ▸ List.getElem_mem hlt) habs
        · rw [List.getD_eq_default nodes default (Nat.le_of_not_lt hlt)] at habs
          exact hne habs.symm
      rw [if_neg hst]
      rw [List.flatMap_eq_nil_iff]
      intro edge hedge
      dsimp only
      split_ifs <;> first | rfl | exact ih _ _ _ _ _ _ _ _

/-- When no node carries the requested start station, there are no start
nodes and `findAllPaths` returns the empty list. -/
theorem findAllPaths_start_absent (nodes : List NodeEntry) (adjacency : List (List AdjEdge))
    (startStation endStation : String) (trainInfo : TrainInfoMap)
    (directionMap : Option DirMap) (maxTransfers : Int) (allowSame : Bool)
    (h : ∀ n ∈ nodes, n.station ≠ startStation) :
    Backend.findAllPaths nodes adjacency startStation endStation trainInfo directionMap
      maxTransfers allowSame = [] := by
  unfold Backend.findAllPaths
  have hfil : (nodes.enum.filter fun p => p.2.station = startStation) = [] := by
    rw [List.filter_eq_nil_iff]
    intro p hp
    simpa using h p.2 (enum_snd_mem hp)
  simp [hfil]

/-- When no node carries the requested end station and the name is
non-empty, `findAllPaths` returns the empty list. -/
theorem findAllPaths_end_absent (nodes : List NodeEntry) (adjacency : List (List AdjEdge))
    (startStation endStation : String) (trainInfo : TrainInfoMap)
    (directionMap : Option DirMap) (maxTransfers : Int) (allowSame : Bool)
    (hend : ∀ n ∈ nodes, n.station ≠ endStation) (hne : endStation ≠ "") :
    Backend.findAllPaths nodes adjacency startStation endStation trainInfo directionMap
      maxTransfers allowSame = [] := by
  unfold Backend.findAllPaths
  dsimp only
  by_cases hsn : (nodes.enum.filter fun p => decide (p.2.station = startStation)).map (·.1) = []
  · rw [if_pos hsn]
  · rw [if_neg hsn]
    have hall : ((nodes.enum.filter fun p => decide (p.2.station = startStation)).map
        (·.1)).flatMap (fun startIdx =>
          Backend.dfs nodes adjacency endStation trainInfo directionMap maxTransfers allowSame
            (nodes.length + 1) startIdx (parseTime (nodes.getD startIdx default).time) 0
            [startIdx] [] [(nodes.getD startIdx default).train]
            (parseTime (nodes.getD startIdx default).time) none) = [] := by
      rw [List.flatMap_eq_nil_iff]
      intro startIdx _
      exact dfs_end_absent nodes adjacency endStation trainInfo directionMap maxTransfers
        allowSame hend hne _ _ _ _ _ _ _ _ _
    rw [hall]
    rfl

/-- C3 (counterexample). The claim says a request naming an unknown station
gets the UnknownStation 404 error; in fact the Express facade has no
station-existence check: with start_station = "NOPE" absent from the
example graph it answers HTTP 200 with an empty paths array. -/
theorem c3_counterexample_unknown_station_is_ok :
    isOkResponse
      (handleFind exNodes exAdj exTrainInfo exDirMap (algorithmConfig none none none)
        ⟨"NOPE", "Z", none, none, none⟩) = true ∧
    responsePaths
      (handleFind exNodes exAdj exTrainInfo exDirMap (algorithmConfig none none none)
        ⟨"NOPE", "Z", none, none, none⟩) = some [] := by
  exact ⟨by decide, by decide⟩

/-- C3 (amended). For every request that passes validation but whose
(trimmed) start station — or end station, when the trimmed name is
non-empty — appears on no node, the facade responds HTTP 200 with an empty
paths array and zero counts, not with a 404 UnknownStation error. -/
theorem c3_unknown_station_empty_ok (nodes : List NodeEntry)
    (adjacency : List (List AdjEdge)) (trainInfo : TrainInfoMap) (dm : DirMap)
    (cfg : AlgorithmConfig) (req r : FindRequest)
    (hv : validatePathfindingRequest req = ValidationOutcome.accept r)
    (habs : (∀ n ∈ nodes, n.station ≠ r.start_station) ∨
      ((∀ n ∈ nodes, n.station ≠ r.end_station) ∧ r.end_station ≠ "")) :
    ∃ body, handleFind nodes adjacency trainInfo dm cfg req = ApiResponse.ok body ∧
      body.paths = [] ∧ body.summary.raw_path_count = 0 ∧
      body.summary.filtered_path_count = 0 ∧ body.summary.merged_path_count = 0 := by
  have hempty : Backend.findAllPaths nodes adjacency r.start_station r.end_station trainInfo
      (some dm)
      (match r.max_transfers with
       | some v => v
       | none => cfg.maxTransfers)
      (match r.allow_same_station_consecutive_transfers with
       | some v => v
       | none => cfg.allowSameStationTransfers) = [] := by
    rcases habs with h | ⟨h, hne⟩
    · exact findAllPaths_start_absent _ _ _ _ _ _ _ _ h
    · exact findAllPaths_end_absent _ _ _ _ _ _ _ _ h hne
  refine ⟨{ start_station := r.start_station, end_station := r.end_station,
            summary := { raw_path_count := 0,
                         window_minutes := (match r.window_minutes with
                           | some v => v
                           | none => cfg.timeWindowMinutes),
                         fastest_minutes := 0, filtered_path_count := 0,
                         merged_path_count := 0 },
            paths := [], statistics := none }, ?_, rfl, rfl, rfl, rfl⟩
  unfold handleFind
  rw [hv]
  dsimp only
  rw [if_pos hempty]

/-- Witness for C3 (amended) on the example graph with an unknown start
station. -/
theorem c3_unknown_station_empty_ok_witness :
    ∃ body, handleFind exNodes exAdj exTrainInfo exDirMap (algorithmConfig none none none)
        ⟨"NOPE2", "Z", none, none, none⟩ = ApiResponse.ok body ∧
      body.paths = [] ∧ body.summary.raw_path_count = 0 ∧
      body.summary.filtered_path_count = 0 ∧ body.summary.merged_path_count = 0 :=
  c3_unknown_station_empty_ok exNodes exAdj exTrainInfo exDirMap
    (algorithmConfig none none none) ⟨"NOPE2", "Z", none, none, none⟩
    ⟨"NOPE2", "Z", none, none, none⟩ (by decide) (Or.inl (by decide))

/-- Sum of the durations along an edge history. -/
def sumDur (eh : List EdgeStep) : Int := (eh.map (·.duration)).sum

/-- Number of edges of a history whose endpoint trains differ. -/
def changeCount (nodes : List NodeEntry) (eh : List EdgeStep) : Nat :=
  (eh.filter fun e =>
    (nodes.getD e.toIdx default).train ≠ (nodes.getD e.fromIdx default).train).length

/-- Number of edges of a history whose recorded kind is "transfer". -/
def transferEdgeCount (eh : List EdgeStep) : Nat :=
  (eh.filter fun e => e.type = "transfer").length

/-- An edge-history entry actually drawn from the adjacency index, with the
positive duration enforced by the enumerator's skip. -/
def EdgeOk (adjacency : List (List AdjEdge)) (e : EdgeStep) : Prop :=
  ∃ a ∈ adjacency.getD e.fromIdx [], a.toIdx = e.toIdx ∧ a.type = e.type ∧
    a.duration = e.duration ∧ 0 < e.duration

theorem sumDur_append (eh : List EdgeStep) (e : EdgeStep) :
    sumDur (eh ++ [e]) = sumDur eh + e.duration := by
  simp [sumDur]

theorem changeCount_append_eq (nodes : List NodeEntry) (eh : List EdgeStep) (e : EdgeStep)
    (h : (nodes.getD e.toIdx default).train = (nodes.getD e.fromIdx default).train) :
    changeCount nodes (eh ++ [e]) = changeCount nodes eh := by
  have h' : (nodes[e.toIdx]?.getD default).train = (nodes[e.fromIdx]?.getD default).train := by
    simpa [List.getD] using h
  simp [changeCount, List.filter_append, h']

theorem changeCount_append_ne (nodes : List NodeEntry) (eh : List EdgeStep) (e : EdgeStep)
    (h : (nodes.getD e.toIdx default).train ≠ (nodes.getD e.fromIdx default).train) :
    changeCount nodes (eh ++ [e]) = changeCount nodes eh + 1 := by
  have h' : ¬ (nodes[e.toIdx]?.getD default).train = (nodes[e.fromIdx]?.getD default).train := by
    simpa [List.getD] using h
  simp [changeCount, List.filter_append, h']

/-- Master emission lemma for the backend DFS: every summary it emits is
`summarizePath` of an edge history drawn from the adjacency, whose
accumulated end time is the start time plus the summed durations, whose
train sequence length is one more than the number of train-changing edges,
and which passed the directionality check when a direction map was
supplied. -/
theorem dfs_emitted_spec (nodes : List NodeEntry) (adjacency : List (List AdjEdge))
    (endStation : String) (trainInfo : TrainInfoMap) (directionMap : Option DirMap)
    (maxTransfers : Int) (allowSame : Bool) (st : Int) :
    ∀ fuel i t tr path eh tseq lts,
      t = st + sumDur eh →
      tseq ≠ [] →
      tseq.getLastD "" = (nodes.getD i default).train →
      tseq.length = changeCount nodes eh + 1 →
      (∀ e ∈ eh, EdgeOk adjacency e) →
      ∀ s ∈ Backend.dfs nodes adjacency endStation trainInfo directionMap maxTransfers
          allowSame fuel i t tr path eh tseq st lts,
        ∃ eh' tseq',
          eh' ≠ [] ∧
          tseq'.length = changeCount nodes eh' + 1 ∧
          (∀ e ∈ eh', EdgeOk adjacency e) ∧
          s = Backend.summarizePath nodes eh' tseq' st (st + sumDur eh') trainInfo ∧
          (∀ dm, directionMap = some dm → s.transfer_count > 0 →
            Backend.directionInvalid dm s.train_sequence = false) := by
  intro fuel
  induction fuel with
  | zero => intro i t tr path eh tseq lts _ _ _ _ _ s hs; exact absurd hs (List.not_mem_nil s)
  | succ fuel ih =>
      intro i t tr path eh tseq lts h1 h2 h3 h4 h5 s hs
      subst h1
      rw [Backend.dfs] at hs
      by_cases hdest : (nodes.getD i default).station = endStation ∧ eh ≠ []
      · rw [if_pos hdest] at hs
        cases hdm : directionMap with
        | none =>
            rw [hdm] at hs
            dsimp only at hs
            rw [List.mem_singleton] at hs
            exact ⟨eh, tseq, hdest.2, h4, h5, hs, fun dm hc => by cases hc⟩
        | some dm =>
            rw [hdm] at hs
            dsimp only at hs
            by_cases hchk :
                (Backend.summarizePath nodes eh tseq st (st + sumDur eh)
                    trainInfo).transfer_count > 0 ∧
                  Backend.directionInvalid dm
                    (Backend.summarizePath nodes eh tseq st (st + sumDur eh)
                      trainInfo).train_sequence = true
            · rw [if_pos hchk] at hs
              exact absurd hs (List.not_mem_nil s)
            · rw [if_neg hchk] at hs
              rw [List.mem_singleton] at hs
              refine ⟨eh, tseq, hdest.2, h4, h5, hs, ?_⟩
              intro dm' hdm' htc
              injection hdm' with hdm''
              subst hdm''
              subst hs
              rcases not_and_or.mp hchk with h | h
              · exact absurd htc h
              · exact Bool.eq_false_iff.mpr h
      · rw [if_neg hdest] at hs
        rw [List.mem_flatMap] at hs
        obtain ⟨edge, hedge, hs⟩ := hs
        dsimp only at hs
        split_ifs at hs with hc1 hc2 hc3 hc4 hc5 hc6 hc7 hc8 hc9 hc10 <;>
          try exact absurd hs (List.not_mem_nil s)
        all_goals refine ih edge.toIdx _ _ _ _ _ _ ?_ ?_ ?_ ?_ ?_ s hs
        all_goals first
          | (rw [sumDur_append]; ring)
          | exact h2
          | (exact List.getLastD_concat _ _ _)
          | (symm; assumption)
          | (rw [changeCount_append_eq nodes eh _ (by rw [← h3]; assumption)]; exact h4)
          | (rw [changeCount_append_ne nodes eh _ (by rw [← h3]; assumption)]; simp [h4])
          | (intro e' he'
             rcases List.mem_append.mp he' with hmem | hmem
             · exact h5 e' hmem
             · rw [List.mem_singleton] at hmem
               subst hmem
               exact ⟨edge, hedge, rfl, rfl, rfl, by show (0 : Int) < edge.duration; omega⟩)
          | simp

/-- The timeline accumulator of `summarizePath` adds up the durations. -/
theorem summarize_foldl_fst (nodes : List NodeEntry) (eh : List EdgeStep) :
    ∀ (t0 : Int) (ds : List TransferDetail),
      (eh.foldl (Backend.summarizeStep nodes) (t0, ds)).1 = t0 + sumDur eh := by
  induction eh with
  | nil => intro t0 ds; simp [sumDur]
  | cons e eh ih =>
      intro t0 ds
      rw [List.foldl_cons]
      by_cases h : e.type = "transfer" <;>
        simp [Backend.summarizeStep, h, ih, sumDur, add_assoc]

/-- The transfer-detail accumulator of `summarizePath` collects one record
per transfer edge. -/
theorem summarize_foldl_snd_length (nodes : List NodeEntry) (eh : List EdgeStep) :
    ∀ (t0 : Int) (ds : List TransferDetail),
      (eh.foldl (Backend.summarizeStep nodes) (t0, ds)).2.length =
        ds.length + transferEdgeCount eh := by
  induction eh with
  | nil => intro t0 ds; simp [transferEdgeCount]
  | cons e eh ih =>
      intro t0 ds
      rw [List.foldl_cons]
      by_cases h : e.type = "transfer" <;>
        simp [Backend.summarizeStep, h, ih, transferEdgeCount, List.filter_cons] <;> omega

/-- A history of positive durations has a non-negative sum. -/
theorem sumDur_nonneg (eh : List EdgeStep) (h : ∀ e ∈ eh, 0 < e.duration) :
    0 ≤ sumDur eh := by
  induction eh with
  | nil => simp [sumDur]
  | cons e eh ih =>
      have h1 := h e (List.mem_cons_self e eh)
      have h2 := ih fun e' he' => h e' (List.mem_cons_of_mem e he')
      simp only [sumDur, List.map_cons, List.sum_cons]
      have : (0 : Int) ≤ (eh.map (·.duration)).sum := h2
      omega

/-- A successful `jsNumber` conversion is non-negative (digit strings). -/
theorem jsNumber_nonneg (s : String) (n : Int) (h : jsNumber s = some n) : 0 ≤ n := by
  unfold jsNumber at h
  split_ifs at h
  · simp at h; omega
  · rcases Option.map_eq_some'.mp h with ⟨d, _, hd⟩
    subst hd
    exact Int.ofNat_nonneg d

/-- Every parsed time value is non-negative. -/
theorem parseTime_nonneg (s : String) : 0 ≤ parseTime s := by
  unfold parseTime
  split_ifs
  · omega
  · omega
  · rcases h0 : (jsSplit ':' s)[0]? with _ | hs0
    · simp [h0]
    · rcases h1 : (jsSplit ':' s)[1]? with _ | ms0
      · simp [h0, h1]
      · rcases hn0 : jsNumber hs0 with _ | hv
        · simp [h0, h1, hn0]
        · rcases hn1 : jsNumber ms0 with _ | mv
          · simp [h0, h1, hn0, hn1]
          · simp only [h0, h1, hn0, hn1]
            have hv0 := jsNumber_nonneg hs0 hv hn0
            have mv0 := jsNumber_nonneg ms0 mv hn1
            omega

/-- On a history whose accumulated end time is passed as `endTime`, the
summary's total is exactly the summed durations (the defensive timeline
reassignment is a no-op and the negative-wrap branch cannot fire). -/
theorem summarizePath_fields (nodes : List NodeEntry) (eh : List EdgeStep)
    (tseq : List String) (st : Int) (trainInfo : TrainInfoMap)
    (hpos : ∀ e ∈ eh, 0 < e.duration) :
    (Backend.summarizePath nodes eh tseq st (st + sumDur eh) trainInfo).total_minutes =
        sumDur eh ∧
      (Backend.summarizePath nodes eh tseq st (st + sumDur eh) trainInfo).departure_time =
        toTime st ∧
      (Backend.summarizePath nodes eh tseq st (st + sumDur eh) trainInfo).arrival_time =
        toTime (st + sumDur eh) ∧
      (Backend.summarizePath nodes eh tseq st (st + sumDur eh) trainInfo).transfer_count =
        transferEdgeCount eh ∧
      (Backend.summarizePath nodes eh tseq st (st + sumDur eh) trainInfo).transfer_details.length =
        transferEdgeCount eh ∧
      (Backend.summarizePath nodes eh tseq st (st + sumDur eh) trainInfo).train_sequence = tseq := by
  have hfst := summarize_foldl_fst nodes eh st []
  have hsnd := summarize_foldl_snd_length nodes eh st []
  have hnn := sumDur_nonneg eh hpos
  have hnegf : ¬ (sumDur eh < 0) := by omega
  refine ⟨?_, ?_, ?_, ?_, ?_, ?_⟩ <;>
    simp [Backend.summarizePath, hfst, hsnd, ite_self, hnegf]

/-- Unpacks membership in the `findAllPaths` result: every returned summary
is an id-stamped copy of a summary emitted by the DFS, and the master
emission lemma applies to it. -/
theorem findAllPaths_emitted (nodes : List NodeEntry) (adjacency : List (List AdjEdge))
    (startStation endStation : String) (trainInfo : TrainInfoMap)
    (directionMap : Option DirMap) (maxTransfers : Int) (allowSame : Bool) :
    ∀ s ∈ Backend.findAllPaths nodes adjacency startStation endStation trainInfo
        directionMap maxTransfers allowSame,
      ∃ (k : Nat) (eh' : List EdgeStep) (tseq' : List String) (st : Int),
        0 ≤ st ∧
        eh' ≠ [] ∧
        tseq'.length = changeCount nodes eh' + 1 ∧
        (∀ e ∈ eh', EdgeOk adjacency e) ∧
        s = { Backend.summarizePath nodes eh' tseq' st (st + sumDur eh') trainInfo with
              id := k } ∧
        (∀ dm, directionMap = some dm →
          s.transfer_count > 0 →
          Backend.directionInvalid dm s.train_sequence = false) := by
  intro s hs
  unfold Backend.findAllPaths at hs
  dsimp only at hs
  by_cases hsn : (nodes.enum.filter fun p => decide (p.2.station = startStation)).map (·.1) = []
  · rw [if_pos hsn] at hs
    exact absurd hs (List.not_mem_nil s)
  · rw [if_neg hsn] at hs
    rw [List.mapIdx_eq_enum_map, List.mem_map] at hs
    obtain ⟨⟨k, p⟩, hkp, hs⟩ := hs
    have hp : p ∈ List.insertionSort pathLe
        (((nodes.enum.filter fun p => decide (p.2.station = startStation)).map (·.1)).flatMap
          fun startIdx =>
            Backend.dfs nodes adjacency endStation trainInfo directionMap maxTransfers allowSame
              (nodes.length + 1) startIdx (parseTime (nodes.getD startIdx default).time) 0
              [startIdx] [] [(nodes.getD startIdx default).train]
              (parseTime (nodes.getD startIdx default).time) none) :=
      enum_snd_mem hkp
    rw [(List.perm_insertionSort pathLe _).mem_iff] at hp
    rw [List.mem_flatMap] at hp
    obtain ⟨startIdx, _, hp⟩ := hp
    have hspec := dfs_emitted_spec nodes adjacency endStation trainInfo directionMap
      maxTransfers allowSame (parseTime (nodes.getD startIdx default).time)
      (nodes.length + 1) startIdx _ 0 [startIdx] [] [(nodes.getD startIdx default).train] none
      (by simp [sumDur]) (by simp) (by simp) (by simp [changeCount])
      (by intro e he; exact absurd he (List.not_mem_nil e)) p hp
    obtain ⟨eh', tseq', hne, hlen, hok, hpsum, hdir⟩ := hspec
    refine ⟨k + 1, eh', tseq', parseTime (nodes.getD startIdx default).time,
      parseTime_nonneg _, hne, hlen, hok, ?_, ?_⟩
    · rw [← hs, hpsum]
      rfl
    · intro dm hdm htc
      have : s.transfer_count = p.transfer_count := by rw [← hs]; rfl
      have ht : s.train_sequence = p.train_sequence := by rw [← hs]; rfl
      rw [ht]
      exact hdir dm hdm (by rw [← this]; exact htc)

/-- On histories drawn from a well-formed adjacency (transfer edges change
train, travel edges keep it), the train-change count and the transfer-edge
count coincide. -/
theorem changeCount_eq_transferEdgeCount (nodes : List NodeEntry)
    (adjacency : List (List AdjEdge)) (eh : List EdgeStep)
    (hwf : ∀ i, ∀ a ∈ adjacency.getD i [],
      (a.type = "transfer" ↔ (nodes.getD a.toIdx default).train ≠ (nodes.getD i default).train))
    (hok : ∀ e ∈ eh, EdgeOk adjacency e) :
    changeCount nodes eh = transferEdgeCount eh := by
  unfold changeCount transferEdgeCount
  have hcongr : ∀ e ∈ eh,
      (decide ((nodes.getD e.toIdx default).train ≠ (nodes.getD e.fromIdx default).train)) =
        (decide (e.type = "transfer")) := by
    intro e he
    obtain ⟨a, ha, hto, hty, -, -⟩ := hok e he
    have hiff := hwf e.fromIdx a ha
    rw [hto, hty] at hiff
    by_cases hd : (nodes.getD e.toIdx default).train = (nodes.getD e.fromIdx default).train
    · have hnt : ¬ e.type = "transfer" := fun h => (hiff.mp h) hd
      have hd' : (nodes[e.toIdx]?.getD default).train = (nodes[e.fromIdx]?.getD default).train := by
        simpa [List.getD] using hd
      simp [hd', hnt]
    · have hnt : e.type = "transfer" := hiff.mpr hd
      have hd' : ¬ (nodes[e.toIdx]?.getD default).train = (nodes[e.fromIdx]?.getD default).train := by
        simpa [List.getD] using hd
      simp [hd', hnt]
  rw [List.filter_congr hcongr]

/-- Positive durations along a history drawn from the adjacency. -/
theorem edgeOk_pos (adjacency : List (List AdjEdge)) (eh : List EdgeStep)
    (hok : ∀ e ∈ eh, EdgeOk adjacency e) : ∀ e ∈ eh, 0 < e.duration := by
  intro e he
  obtain ⟨a, -, -, -, -, hd⟩ := hok e he
  exact hd

/-- C6. For every path summary returned by the enumerator on a graph whose
adjacency is well-formed in the sense of the data model (an edge is marked
"transfer" exactly when its endpoint trains differ, as the graph builder
guarantees), transfer_count equals |train_sequence| − 1 (stated additively)
and equals |transfer_details|. -/
theorem c6_transfer_count_invariant (nodes : List NodeEntry)
    (adjacency : List (List AdjEdge)) (startStation endStation : String)
    (trainInfo : TrainInfoMap) (directionMap : Option DirMap) (maxTransfers : Int)
    (allowSame : Bool)
    (hwf : ∀ i, ∀ a ∈ adjacency.getD i [],
      (a.type = "transfer" ↔ (nodes.getD a.toIdx default).train ≠ (nodes.getD i default).train)) :
    ∀ s ∈ Backend.findAllPaths nodes adjacency startStation endStation trainInfo
        directionMap maxTransfers allowSame,
      s.train_sequence.length = s.transfer_count + 1 ∧
        s.transfer_count = s.transfer_details.length := by
  intro s hs
  obtain ⟨k, eh, tseq, st, hst, hne, hlen, hok, hseq, -⟩ :=
    findAllPaths_emitted nodes adjacency startStation endStation trainInfo directionMap
      maxTransfers allowSame s hs
  obtain ⟨hTot, hDep, hArr, hTC, hTD, hTS⟩ :=
    summarizePath_fields nodes eh tseq st trainInfo (edgeOk_pos adjacency eh hok)
  have hcnt := changeCount_eq_transferEdgeCount nodes adjacency eh hwf hok
  subst hseq
  constructor
  · show (Backend.summarizePath nodes eh tseq st (st + sumDur eh)
        trainInfo).train_sequence.length =
      (Backend.summarizePath nodes eh tseq st (st + sumDur eh) trainInfo).transfer_count + 1
    rw [hTS, hTC, hlen, hcnt]
  · show (Backend.summarizePath nodes eh tseq st (st + sumDur eh) trainInfo).transfer_count =
      (Backend.summarizePath nodes eh tseq st (st + sumDur eh)
        trainInfo).transfer_details.length
    rw [hTC, hTD]

/-- Witness for C6 on the scenario-B example graph (hypothesis `hwf`
discharged by computation). -/
theorem c6_transfer_count_invariant_witness :
    ({ id := 1, type := "Transfer", train_sequence := ["T1", "T2"],
       transfer_details := [⟨"Y", "08:30", "08:40", 10⟩],
       departure_time := "08:00", arrival_time := "09:10",
       total_time := "1h 10m", total_minutes := 70, is_fast := false,
       transfer_count := 1, transfer_options := none } :
        PathSummary).train_sequence.length =
      ({ id := 1, type := "Transfer", train_sequence := ["T1", "T2"],
         transfer_details := [⟨"Y", "08:30", "08:40", 10⟩],
         departure_time := "08:00", arrival_time := "09:10",
         total_time := "1h 10m", total_minutes := 70, is_fast := false,
         transfer_count := 1, transfer_options := none } : PathSummary).transfer_count + 1 :=
  (c6_transfer_count_invariant exNodes exAdj "X" "Z" exTrainInfo none 2 false
    (by
      intro i a ha
      by_cases hi : i < 4
      · interval_cases i <;> revert a ha <;> decide
      · rw [List.getD_eq_default _ _ (by simp [exAdj]; omega)] at ha
        exact absurd ha (List.not_mem_nil a)) _ (by decide)).1

/-- C7 (amended). Every summary returned by the enumerator has
total_minutes congruent to (parse(arrival) − parse(departure)) modulo 1440,
and is built from an edge trace whose durations sum to exactly
total_minutes; the plain equality with the wrapped clock difference claimed
by the spec holds additionally whenever total_minutes < 1440 (it fails for
itineraries spanning a day or more, which carry the unwrapped sum). -/
theorem c7_total_minutes (nodes : List NodeEntry) (adjacency : List (List AdjEdge))
    (startStation endStation : String) (trainInfo : TrainInfoMap)
    (directionMap : Option DirMap) (maxTransfers : Int) (allowSame : Bool) :
    ∀ s ∈ Backend.findAllPaths nodes adjacency startStation endStation trainInfo
        directionMap maxTransfers allowSame,
      s.total_minutes % 1440 =
          (parseTime s.arrival_time - parseTime s.departure_time) % 1440 ∧
        ∃ (eh : List EdgeStep) (tseq : List String) (st : Int) (k : Nat),
          (∀ e ∈ eh, EdgeOk adjacency e) ∧
          s = { Backend.summarizePath nodes eh tseq st (st + sumDur eh) trainInfo with
                id := k } ∧
          s.total_minutes = sumDur eh ∧
          (s.total_minutes < 1440 →
            s.total_minutes =
              (parseTime s.arrival_time - parseTime s.departure_time) % 1440) := by
  intro s hs
  obtain ⟨k, eh, tseq, st, hst, hne, hlen, hok, hseq, -⟩ :=
    findAllPaths_emitted nodes adjacency startStation endStation trainInfo directionMap
      maxTransfers allowSame s hs
  have hpos := edgeOk_pos adjacency eh hok
  obtain ⟨hTot, hDep, hArr, hTC, hTD, hTS⟩ :=
    summarizePath_fields nodes eh tseq st trainInfo hpos
  have hnn := sumDur_nonneg eh hpos
  have hsTot : s.total_minutes = sumDur eh := by rw [hseq]; exact hTot
  have hsDep : s.departure_time = toTime st := by rw [hseq]; exact hDep
  have hsArr : s.arrival_time = toTime (st + sumDur eh) := by rw [hseq]; exact hArr
  have hparr : parseTime s.arrival_time % 1440 = (st + sumDur eh) % 1440 := by
    rw [hsArr]; exact parseTime_toTime_emod _ (by omega)
  have hpdep : parseTime s.departure_time % 1440 = st % 1440 := by
    rw [hsDep]; exact parseTime_toTime_emod _ hst
  have hcong : s.total_minutes % 1440 =
      (parseTime s.arrival_time - parseTime s.departure_time) % 1440 := by
    calc s.total_minutes % 1440 = ((st + sumDur eh) - st) % 1440 := by
          rw [hsTot]; ring_nf
      _ = ((st + sumDur eh) % 1440 - st % 1440) % 1440 := by rw [Int.sub_emod]
      _ = (parseTime s.arrival_time % 1440 - parseTime s.departure_time % 1440) % 1440 := by
          rw [hparr, hpdep]
      _ = (parseTime s.arrival_time - parseTime s.departure_time) % 1440 := by
          rw [← Int.sub_emod]
  refine ⟨hcong, eh, tseq, st, k, hok, hseq, hsTot, fun hlt => ?_⟩
  rw [← hcong, Int.emod_eq_of_lt (by omega) hlt]

/-- Witness for C7 (amended): the congruence instantiated on the concrete
transfer itinerary of the example graph. -/
theorem c7_total_minutes_witness :
    ({ id := 1, type := "Transfer", train_sequence := ["T1", "T2"],
       transfer_details := [⟨"Y", "08:30", "08:40", 10⟩],
       departure_time := "08:00", arrival_time := "09:10",
       total_time := "1h 10m", total_minutes := 70, is_fast := false,
       transfer_count := 1, transfer_options := none } : PathSummary).total_minutes % 1440 =
      (parseTime "09:10" - parseTime "08:00") % 1440 :=
  (c7_total_minutes exNodes exAdj "X" "Z" exTrainInfo none 2 false _ (by decide)).1

/-- Unfolds a passed pairwise directionality check: no shared line index
holds opposite non-zero entries. -/
theorem pairInvalid_false (a b : List Int) (h : Backend.pairInvalid a b = false) :
    ∀ (j : Nat) (x y : Int), a[j]? = some x → b[j]? = some y → ¬(x ≠ 0 ∧ y ≠ 0 ∧ x = -y) := by
  intro j x y hx hy hc
  obtain ⟨hxl, hxv⟩ := List.getElem?_eq_some_iff.mp hx
  obtain ⟨hyl, hyv⟩ := List.getElem?_eq_some_iff.mp hy
  have hj : j ∈ List.range (min a.length b.length) := List.mem_range.mpr (by omega)
  have hf := List.any_eq_false.mp h j hj
  apply hf
  have hax : a.getD j 0 = x := by rw [List.getD_eq_getElem a 0 hxl]; exact hxv
  have hby : b.getD j 0 = y := by rw [List.getD_eq_getElem b 0 hyl]; exact hyv
  simp only [hax, hby]
  exact decide_eq_true (by exact ⟨hc.1, hc.2.1, hc.2.2⟩)

/-- Unfolds a passed directionality loop: every adjacent pair of trains
whose vectors are both present is compatible on every shared line index. -/
theorem directionInvalid_false_spec (dm : DirMap) :
    ∀ seq : List String, Backend.directionInvalid dm seq = false →
      ∀ k, k + 1 < seq.length →
        ∀ a b, dm (seq.getD k "") = some a → dm (seq.getD (k + 1) "") = some b →
          ∀ (j : Nat) (x y : Int), a[j]? = some x → b[j]? = some y →
            ¬(x ≠ 0 ∧ y ≠ 0 ∧ x = -y) := by
  intro seq
  induction seq with
  | nil => intro _ k hk; simp at hk
  | cons t1 tl ih =>
      cases tl with
      | nil => intro _ k hk; simp at hk
      | cons t2 rest =>
          intro h k hk a b ha hb
          rw [Backend.directionInvalid] at h
          rw [Bool.or_eq_false_iff] at h
          cases k with
          | zero =>
              simp only [List.getD_cons_zero, List.getD_cons_succ] at ha hb
              rw [ha, hb] at h
              exact pairInvalid_false a b h.1
          | succ k =>
              simp only [List.getD_cons_succ] at ha hb
              exact ih h.2 k (by simpa using hk) a b ha hb

/-- C9. On a run with a direction map, every returned path with at least
one transfer is directionally consistent: for every adjacent pair of trains
in its sequence whose vectors are both in the map, no line index carries
opposite non-zero entries (incompatible candidates are rejected at
emission and never appear in the output). -/
theorem c9_direction_consistency (nodes : List NodeEntry)
    (adjacency : List (List AdjEdge)) (startStation endStation : String)
    (trainInfo : TrainInfoMap) (dm : DirMap) (maxTransfers : Int) (allowSame : Bool) :
    ∀ s ∈ Backend.findAllPaths nodes adjacency startStation endStation trainInfo
        (some dm) maxTransfers allowSame,
      1 ≤ s.transfer_count →
      ∀ k, k + 1 < s.train_sequence.length →
        ∀ a b, dm (s.train_sequence.getD k "") = some a →
          dm (s.train_sequence.getD (k + 1) "") = some b →
          ∀ (j : Nat) (x y : Int), a[j]? = some x → b[j]? = some y →
            ¬(x ≠ 0 ∧ y ≠ 0 ∧ x = -y) := by
  intro s hs htc
  obtain ⟨k0, eh, tseq, st, hst, hne, hlen, hok, hseq, hdirp⟩ :=
    findAllPaths_emitted nodes adjacency startStation endStation trainInfo (some dm)
      maxTransfers allowSame s hs
  have hinv := hdirp dm rfl (by omega)
  exact directionInvalid_false_spec dm s.train_sequence hinv

/-- Direction map giving both example trains the same orientation. -/
def exDirMapSame : DirMap := fun t =>
  if t = "T1" then some [1, 0] else if t = "T2" then some [1, 0] else none

/-- Witness for C9 on the example graph with compatible direction vectors,
instantiated at the first adjacent pair and line index 0. -/
theorem c9_direction_consistency_witness :
    ¬((1 : Int) ≠ 0 ∧ (1 : Int) ≠ 0 ∧ (1 : Int) = -(1 : Int)) :=
  c9_direction_consistency exNodes exAdj "X" "Z" exTrainInfo exDirMapSame 2 false
    { id := 1, type := "Transfer", train_sequence := ["T1", "T2"],
      transfer_details := [⟨"Y", "08:30", "08:40", 10⟩],
      departure_time := "08:00", arrival_time := "09:10",
      total_time := "1h 10m", total_minutes := 70, is_fast := false,
      transfer_count := 1, transfer_options := none }
    (by decide) (by decide) 0 (by decide) [1, 0] [1, 0] (by decide) (by decide)
    0 1 1 (by decide) (by decide)

/-- When the row count equals the detail count, the seeded rows are the
singletons of the details. -/
theorem optRows_eq_map_singleton :
    ∀ details : List TransferDetail,
      optRows details.length details = details.map fun d => [d] := by
  intro details
  induction details with
  | nil => rfl
  | cons d ds ih =>
      unfold optRows
      rw [List.length_cons, List.range_succ_eq_map, List.map_cons, List.map_map]
      simp only [List.getElem?_cons_zero, List.map_cons]
      congr 1
      have : ((fun idx => match (d :: ds)[idx]? with
          | some d => [d]
          | none => ([] : List TransferDetail)) ∘ Nat.succ) = fun idx =>
          match ds[idx]? with
          | some d => [d]
          | none => [] := by
        funext idx
        simp [Function.comp]
      rw [this]
      exact ih

/-- Key lookup fails exactly when the key is absent. -/
theorem lookupGroup_eq_none (st : List MergeGroup) (k : MergeKey) :
    lookupGroup st k = none ↔ k ∉ st.map (·.1) := by
  unfold lookupGroup
  rw [Option.map_eq_none', List.find?_eq_none]
  constructor
  · intro h hk
    rcases List.mem_map.mp hk with ⟨g, hg, hgk⟩
    exact absurd (decide_eq_true hgk) (by simpa using h g hg)
  · intro h g hg
    by_contra hc
    exact h (List.mem_map.mpr ⟨g, hg, by simpa using hc⟩)

/-- A successful key lookup returns the data of a state entry. -/
theorem lookupGroup_eq_some (st : List MergeGroup) (k : MergeKey)
    (v : PathSummary × Option (List (List TransferDetail)))
    (hv : lookupGroup st k = some v) : (k, v) ∈ st := by
  unfold lookupGroup at hv
  rcases Option.map_eq_some'.mp hv with ⟨g, hg, hgv⟩
  have hk := List.find?_some hg
  have hmem := List.mem_of_find?_eq_some hg
  have : g.1 = k := by simpa using hk
  rw [← this, ← hgv] at *
  simpa using hmem

/-- Updating an existing key leaves the key sequence unchanged. -/
theorem updateGroup_keys (st : List MergeGroup) (k : MergeKey)
    (v : PathSummary × Option (List (List TransferDetail))) :
    (updateGroup st k v).map (·.1) = st.map (·.1) := by
  unfold updateGroup
  rw [List.map_map]
  apply List.map_congr_left
  intro g hg
  by_cases h : g.1 = k <;> simp [h]

/-- Membership in an updated state: either an untouched entry or the new
value under the updated key. -/
theorem updateGroup_mem (st : List MergeGroup) (k : MergeKey)
    (v : PathSummary × Option (List (List TransferDetail)))
    (g : MergeGroup) (hg : g ∈ updateGroup st k v) :
    g ∈ st ∨ g = (k, v) := by
  unfold updateGroup at hg
  rcases List.mem_map.mp hg with ⟨g0, hg0, hgv⟩
  by_cases h : g0.1 = k
  · right; rw [← hgv]; simp [h]
  · left; rw [← hgv]; simp [h]; exact hg0

/-- A dedup-push at an in-bounds index succeeds, preserves the row count
and keeps every row non-empty. -/
theorem addOption_in_bounds (ls : List (List TransferDetail)) (idx : Nat)
    (d : TransferDetail) (h : idx < ls.length) :
    ∃ ls', Backend.addOption ls idx d = some ls' ∧ ls'.length = ls.length ∧
      ((∀ l ∈ ls, l ≠ []) → ∀ l ∈ ls', l ≠ []) := by
  unfold Backend.addOption
  rw [if_neg (by omega)]
  dsimp only
  have hg : ls.get? idx = some (ls.get ⟨idx, h⟩) := List.get?_eq_get h
  rw [hg]
  refine ⟨_, rfl, List.length_set ls idx _, ?_⟩
  intro hne l hl
  rcases List.mem_or_eq_of_mem_set hl with hmem | heq
  · exact hne l hmem
  · subst heq
    by_cases hc : (ls.get ⟨idx, h⟩).contains d
    · rw [if_pos hc]
      exact hne _ (List.get_mem ls idx h)
    · rw [if_neg hc]
      simp

/-- Folding the dedup-push over indexed details succeeds while the indices
stay in bounds, preserving row count and non-emptiness. -/
theorem addOptions_from (details : List TransferDetail) :
    ∀ (k : Nat) (ls : List (List TransferDetail)),
      k + details.length ≤ ls.length →
      ∃ ls', List.foldlM (fun ls p => Backend.addOption ls p.1 p.2) ls
          (List.enumFrom k details) = some ls' ∧
        ls'.length = ls.length ∧ ((∀ l ∈ ls, l ≠ []) → ∀ l ∈ ls', l ≠ []) := by
  induction details with
  | nil => intro k ls _; exact ⟨ls, rfl, rfl, fun h => h⟩
  | cons d ds ih =>
      intro k ls h
      obtain ⟨ls1, hls1, hlen1, hne1⟩ :=
        addOption_in_bounds ls k d (by simp at h; omega)
      obtain ⟨ls', hls', hlen', hne'⟩ := ih (k + 1) ls1 (by simp at h; omega)
      refine ⟨ls', ?_, by omega, fun hne => hne' (hne1 hne)⟩
      rw [List.enumFrom_cons, List.foldlM_cons, hls1]
      exact hls'

/-- The dedup-push loop of the backend continuation branch. -/
theorem addOptions_wf (ls : List (List TransferDetail)) (details : List TransferDetail)
    (h : details.length ≤ ls.length) :
    ∃ ls', Backend.addOptions ls details = some ls' ∧ ls'.length = ls.length ∧
      ((∀ l ∈ ls, l ≠ []) → ∀ l ∈ ls', l ≠ []) := by
  have := addOptions_from details 0 ls (by omega)
  simpa [Backend.addOptions, List.enum] using this

/-- Invariant of the backend grouping state: insertion keys are distinct,
each entry's key is the key of its representative, representatives are
well-formed, and the scratch rows exist exactly for positive transfer
counts, with one non-empty row per transfer step. -/
def MergeInv (st : List MergeGroup) : Prop :=
  (st.map (·.1)).Nodup ∧
  ∀ g ∈ st,
    g.1 = Backend.keyOf g.2.1 ∧
    g.2.1.transfer_count = g.2.1.transfer_details.length ∧
    (g.2.2 = none ↔ Backend.effTransferCount g.2.1 = 0) ∧
    ∀ ls, g.2.2 = some ls →
      ls.length = Backend.effTransferCount g.2.1 ∧ ∀ l ∈ ls, l ≠ []

/-- On a well-formed summary the JS `||` fallback is irrelevant. -/
theorem effTransferCount_of_wf (p : PathSummary)
    (h : p.transfer_count = p.transfer_details.length) :
    Backend.effTransferCount p = p.transfer_count := by
  unfold Backend.effTransferCount
  split_ifs with h0
  · rfl
  · omega

/-- The transfer-count component of the merge key is the effective
transfer count. -/
theorem keyOf_transferCount (p : PathSummary) :
    (Backend.keyOf p).transferCount = Backend.effTransferCount p := rfl

/-- One backend grouping step on a well-formed entry succeeds and keeps the
invariant; the keys stay the same or gain the entry's key at the end. -/
theorem mergeStep_wf (st : List MergeGroup) (p : PathSummary) (hinv : MergeInv st)
    (hwf : p.transfer_count = p.transfer_details.length) :
    ∃ st', Backend.mergeStep st p = some st' ∧ MergeInv st' ∧
      (st'.map (·.1) = st.map (·.1) ∨
        st'.map (·.1) = st.map (·.1) ++ [Backend.keyOf p]) := by
  obtain ⟨hnd, hgs⟩ := hinv
  unfold Backend.mergeStep
  dsimp only
  cases hlk : lookupGroup st (Backend.keyOf p) with
  | none =>
      have hnotin := (lookupGroup_eq_none st (Backend.keyOf p)).mp hlk
      have heff := effTransferCount_of_wf p hwf
      by_cases hT : Backend.effTransferCount p > 0
      · rw [if_pos hT]
        have hinit : initOptionLists (Backend.effTransferCount p) p.transfer_details =
            some (optRows (Backend.effTransferCount p) p.transfer_details) := by
          unfold initOptionLists
          rw [if_pos (by omega)]
        rw [hinit]
        refine ⟨_, rfl, ⟨?_, ?_⟩, Or.inr (by simp)⟩
        · rw [List.map_append]
          rw [List.nodup_append]
          exact ⟨hnd, List.nodup_singleton _, by simpa using hnotin⟩
        · intro g hg
          rcases List.mem_append.mp hg with hg | hg
          · exact hgs g hg
          · rw [List.mem_singleton] at hg
            subst hg
            refine ⟨rfl, hwf, by simp; omega, ?_⟩
            intro ls hls
            simp only [Option.some_inj] at hls
            subst hls
            rw [heff, hwf, optRows_eq_map_singleton]
            constructor
            · simp [heff, hwf]
            · intro l hl
              rcases List.mem_map.mp hl with ⟨d, -, hd⟩
              rw [← hd]
              simp
      · rw [if_neg hT]
        refine ⟨_, rfl, ⟨?_, ?_⟩, Or.inr (by simp)⟩
        · rw [List.map_append, List.nodup_append]
          exact ⟨hnd, List.nodup_singleton _, by simpa using hnotin⟩
        · intro g hg
          rcases List.mem_append.mp hg with hg | hg
          · exact hgs g hg
          · rw [List.mem_singleton] at hg
            subst hg
            exact ⟨rfl, hwf, by simp; omega, fun ls hls => by cases hls⟩
  | some v =>
      obtain ⟨base, scratch⟩ := v
      dsimp only
      have hmem := lookupGroup_eq_some st (Backend.keyOf p) (base, scratch) hlk
      obtain ⟨hkey, hwfb, hiff, hrows⟩ := hgs _ hmem
      have heffb : Backend.effTransferCount base = Backend.effTransferCount p := by
        have := congrArg MergeKey.transferCount hkey
        simpa [keyOf_transferCount] using this.symm
      by_cases hT : Backend.effTransferCount p = 0
      · rw [if_pos hT]
        exact ⟨st, rfl, ⟨hnd, hgs⟩, Or.inl rfl⟩
      · rw [if_neg hT]
        cases hsc : scratch with
        | none => exact absurd (heffb ▸ hiff.mp hsc) hT
        | some ls =>
            subst hsc
            obtain ⟨hlslen, hlsne⟩ := hrows ls rfl
            have hdlen : p.transfer_details.length ≤ ls.length := by
              rw [hlslen, heffb, effTransferCount_of_wf p hwf]
              omega
            obtain ⟨ls', hls', hlen', hne'⟩ := addOptions_wf ls p.transfer_details hdlen
            simp only [Option.getD_some]
            rw [hls']
            refine ⟨_, rfl, ⟨?_, ?_⟩, Or.inl (updateGroup_keys st _ _)⟩
            · rw [updateGroup_keys]
              exact hnd
            · intro g hg
              rcases updateGroup_mem st _ _ g hg with hg | hg
              · exact hgs g hg
              · subst hg
                refine ⟨hkey, hwfb, ?_, ?_⟩
                · constructor
                  · intro hc; cases hc
                  · intro hc; rw [heffb] at hc; exact absurd hc hT
                · intro ls0 hls0
                  simp only [Option.some_inj] at hls0
                  subst hls0
                  exact ⟨by rw [hlen', hlslen], hne' hlsne⟩

/-- Folding the backend grouping loop over well-formed entries succeeds and
keeps the invariant. -/
theorem mergeLoop_wf (ps : List PathSummary) :
    ∀ st : List MergeGroup, MergeInv st →
      (∀ p ∈ ps, p.transfer_count = p.transfer_details.length) →
      ∃ st', List.foldlM Backend.mergeStep st ps = some st' ∧ MergeInv st' := by
  induction ps with
  | nil => intro st hinv _; exact ⟨st, rfl, hinv⟩
  | cons p ps ih =>
      intro st hinv hwf
      obtain ⟨st1, hst1, hinv1, -⟩ :=
        mergeStep_wf st p hinv (hwf p (List.mem_cons_self p ps))
      obtain ⟨st', hst', hinv'⟩ :=
        ih st1 hinv1 (fun q hq => hwf q (List.mem_cons_of_mem p hq))
      refine ⟨st', ?_, hinv'⟩
      rw [List.foldlM_cons, hst1]
      exact hst'

/-- Finalizing a group that satisfies the state invariant preserves its
merge key and well-formedness. -/
theorem finalizeGroup_key_wf (g : MergeGroup)
    (hkey : g.1 = Backend.keyOf g.2.1)
    (hwfb : g.2.1.transfer_count = g.2.1.transfer_details.length)
    (hiff : g.2.2 = none ↔ Backend.effTransferCount g.2.1 = 0)
    (hrows : ∀ ls, g.2.2 = some ls →
      ls.length = Backend.effTransferCount g.2.1 ∧ ∀ l ∈ ls, l ≠ []) :
    Backend.keyOf (Backend.finalizeGroup g) = g.1 ∧
      (Backend.finalizeGroup g).transfer_count =
        (Backend.finalizeGroup g).transfer_details.length := by
  obtain ⟨k, base, scratch⟩ := g
  dsimp only at hkey hwfb hiff hrows
  cases scratch with
  | none => exact ⟨hkey.symm, hwfb⟩
  | some ls =>
      obtain ⟨hlen, hne⟩ := hrows ls rfl
      have htc0 : base.transfer_count ≠ 0 := by
        intro h0
        have : Backend.effTransferCount base = 0 := by
          unfold Backend.effTransferCount
          rw [if_neg (by simpa using h0)]
          omega
        exact Option.some_ne_none ls (hiff.mpr this)
      have heff : Backend.effTransferCount base = base.transfer_count := by
        unfold Backend.effTransferCount
        rw [if_pos htc0]
      have hfil : ls.filter (fun l => l ≠ []) = ls :=
        List.filter_eq_self.mpr fun l hl => by simpa using hne l hl
      unfold Backend.finalizeGroup
      dsimp only
      rw [hfil]
      have hdl : (ls.map fun l => l.headD default).length = base.transfer_count := by
        rw [List.length_map, hlen, heff]
      constructor
      · rw [hkey]
        unfold Backend.keyOf Backend.effTransferCount
        dsimp only
        rw [if_pos htc0, if_pos htc0]
      · simpa using hdl.symm

/-- The group created for a first-seen entry. -/
def mkGroup (q : PathSummary) : MergeGroup :=
  (Backend.keyOf q, q,
    if Backend.effTransferCount q > 0 then
      some (optRows (Backend.effTransferCount q) q.transfer_details)
    else none)

/-- Grouping then finalizing a lone entry. -/
def singleMerged (q : PathSummary) : PathSummary := Backend.finalizeGroup (mkGroup q)

/-- Rebuilds transfer_options from the representative transfer details,
one singleton option set per step; this is what re-merging does to an
already-merged record. -/
def collapseTransferOptions (r : PathSummary) : PathSummary :=
  if Backend.effTransferCount r = 0 then r
  else
    { r with
      transfer_options :=
        some (r.transfer_details.enum.map fun pr => TransferOption.mk (pr.1 + 1) [pr.2]) }

/-- On pairwise-distinct keys the grouping loop appends one fresh group per
entry. -/
theorem mergeLoop_distinct (qs : List PathSummary) :
    ∀ st : List MergeGroup,
      (∀ q ∈ qs, q.transfer_count = q.transfer_details.length) →
      (qs.map Backend.keyOf).Nodup →
      (∀ q ∈ qs, Backend.keyOf q ∉ st.map (·.1)) →
      List.foldlM Backend.mergeStep st qs = some (st ++ qs.map mkGroup) := by
  induction qs with
  | nil => intro st _ _ _; simp
  | cons q qs ih =>
      intro st hwf hnd hdisj
      rw [List.foldlM_cons]
      have hstep : Backend.mergeStep st q = some (st ++ [mkGroup q]) := by
        unfold Backend.mergeStep
        dsimp only
        rw [(lookupGroup_eq_none st (Backend.keyOf q)).mpr
          (hdisj q (List.mem_cons_self q qs))]
        have heff := effTransferCount_of_wf q (hwf q (List.mem_cons_self q qs))
        by_cases hT : Backend.effTransferCount q > 0
        · rw [if_pos hT]
          have hinit : initOptionLists (Backend.effTransferCount q) q.transfer_details =
              some (optRows (Backend.effTransferCount q) q.transfer_details) := by
            unfold initOptionLists
            rw [if_pos (by rw [heff, hwf q (List.mem_cons_self q qs)])]
          rw [hinit]
          unfold mkGroup
          rw [if_pos hT]
        · rw [if_neg hT]
          unfold mkGroup
          rw [if_neg hT]
      rw [hstep]
      rw [List.map_cons, List.nodup_cons] at hnd
      have hdisj' : ∀ q' ∈ qs, Backend.keyOf q' ∉ (st ++ [mkGroup q]).map (·.1) := by
        intro q' hq'
        rw [List.map_append, List.mem_append]
        rintro (h | h)
        · exact hdisj q' (List.mem_cons_of_mem q hq') h
        · have hqk : Backend.keyOf q' = Backend.keyOf q := by
            unfold mkGroup at h
            simpa using h
          exact hnd.1 (hqk ▸ List.mem_map.mpr ⟨q', hq', rfl⟩)
      have hbind : (some (st ++ [mkGroup q]) >>= fun s =>
          List.foldlM Backend.mergeStep s qs) =
          List.foldlM Backend.mergeStep (st ++ [mkGroup q]) qs := rfl
      rw [hbind, ih (st ++ [mkGroup q])
        (fun q' hq' => hwf q' (List.mem_cons_of_mem q hq')) hnd.2 hdisj']
      rw [List.append_assoc]
      rfl

/-- Re-merging a lone well-formed record collapses each step's options to
the representative. -/
theorem singleMerged_eq_collapse (r : PathSummary)
    (hwf : r.transfer_count = r.transfer_details.length) :
    singleMerged r = collapseTransferOptions r := by
  unfold singleMerged mkGroup collapseTransferOptions
  have heff := effTransferCount_of_wf r hwf
  by_cases hT : Backend.effTransferCount r > 0
  · rw [if_pos hT, if_neg (by omega)]
    have heq : Backend.effTransferCount r = r.transfer_details.length := by omega
    rw [heq, optRows_eq_map_singleton]
    unfold Backend.finalizeGroup
    dsimp only
    have e1 : ((r.transfer_details.map fun d => [d]).filter fun l => l ≠ []) =
        r.transfer_details.map fun d => [d] := by
      apply List.filter_eq_self.mpr
      intro l hl
      rcases List.mem_map.mp hl with ⟨d, -, hd⟩
      subst hd
      simp
    have e2 : ((r.transfer_details.map fun d => [d]).map fun l => l.headD default) =
        r.transfer_details := by
      rw [List.map_map]
      simp [Function.comp_def]
    have e3 : (((r.transfer_details.map fun d => [d]).enum.map fun p =>
        TransferOption.mk (p.1 + 1) p.2).filter fun o => o.options ≠ []) =
        r.transfer_details.enum.map fun pr => TransferOption.mk (pr.1 + 1) [pr.2] := by
      rw [List.enum_map, List.map_map]
      rw [List.filter_eq_self.mpr]
      · apply List.map_congr_left
        intro p _
        rfl
      · intro o ho
        rcases List.mem_map.mp ho with ⟨p, -, hp⟩
        subst hp
        simp [Prod.map]
    rw [e1, e2, e3]
  · rw [if_neg hT, if_pos (by omega)]
    rfl

/-- C5 (amended). On any list of well-formed path summaries (each with
transfer_count = |transfer_details|, as the enumerator emits), the merge
succeeds, and merging the merged result yields the same list of records
except that every transfer_options entry collapses to the single
representative option of its step; all other fields, including
transfer_details, are preserved.  Full idempotence fails because re-merging
rebuilds the option lists from the representative details only. -/
theorem c5_merge_idempotent_up_to_options (ps : List PathSummary)
    (hwf : ∀ p ∈ ps, p.transfer_count = p.transfer_details.length) :
    ∃ out, Backend.mergePathsByTrainSequence ps = some out ∧
      Backend.mergePathsByTrainSequence out = some (out.map collapseTransferOptions) := by
  obtain ⟨stF, hstF, hinvF⟩ :=
    mergeLoop_wf ps [] ⟨List.nodup_nil, fun g hg => absurd hg (List.not_mem_nil g)⟩ hwf
  obtain ⟨hndF, hgsF⟩ := hinvF
  have hkw : ∀ g ∈ stF, Backend.keyOf (Backend.finalizeGroup g) = g.1 ∧
      (Backend.finalizeGroup g).transfer_count =
        (Backend.finalizeGroup g).transfer_details.length := by
    intro g hg
    obtain ⟨h1, h2, h3, h4⟩ := hgsF g hg
    exact finalizeGroup_key_wf g h1 h2 h3 h4
  have hm1 : Backend.mergePathsByTrainSequence ps =
      some (stF.map Backend.finalizeGroup) := by
    unfold Backend.mergePathsByTrainSequence
    rw [hstF]
    rfl
  have houtwf : ∀ r ∈ stF.map Backend.finalizeGroup,
      r.transfer_count = r.transfer_details.length := by
    intro r hr
    rcases List.mem_map.mp hr with ⟨g, hg, hgr⟩
    rw [← hgr]
    exact (hkw g hg).2
  have houtkeys : (stF.map Backend.finalizeGroup).map Backend.keyOf = stF.map (·.1) := by
    rw [List.map_map]
    apply List.map_congr_left
    intro g hg
    exact (hkw g hg).1
  have hndout : ((stF.map Backend.finalizeGroup).map Backend.keyOf).Nodup := by
    rw [houtkeys]
    exact hndF
  have hloop2 := mergeLoop_distinct (stF.map Backend.finalizeGroup) [] houtwf hndout
    (fun q hq => by simp)
  have hm2 : Backend.mergePathsByTrainSequence (stF.map Backend.finalizeGroup) =
      some ((stF.map Backend.finalizeGroup).map singleMerged) := by
    unfold Backend.mergePathsByTrainSequence
    rw [hloop2]
    simp only [List.nil_append, Option.map_some', List.map_map]
    rfl
  refine ⟨stF.map Backend.finalizeGroup, hm1, ?_⟩
  rw [hm2]
  congr 1
  apply List.map_congr_left
  intro r hr
  exact singleMerged_eq_collapse r (houtwf r hr)

/-- Witness for C5 (amended) on the two-option merge input. -/
theorem c5_merge_idempotent_up_to_options_witness :
    ∃ out, Backend.mergePathsByTrainSequence exMergeInput = some out ∧
      Backend.mergePathsByTrainSequence out = some (out.map collapseTransferOptions) :=
  c5_merge_idempotent_up_to_options exMergeInput (by decide)

/-- On non-negative minute values the frontend's normalising `toTime`
agrees with the backend's. -/
theorem toTime_frontend_eq (t : Int) (h : 0 ≤ t) : Frontend.toTime t = toTime t := by
  unfold Frontend.toTime toTime
  have h1 : Int.tmod t 1440 = t % 1440 := Int.tmod_eq_emod h (by norm_num)
  have h2 : 0 ≤ t % 1440 := Int.emod_nonneg t (by norm_num)
  have h3 : t % 1440 < 1440 := Int.emod_lt_of_pos t (by norm_num)
  have h4 : Int.tmod (t % 1440 + 1440) 1440 = t % 1440 := by
    rw [Int.tmod_eq_emod (by omega) (by norm_num)]
    omega
  rw [h1, h4]

/-- The step result's timeline component. -/
theorem summarizeStep_fst (nodes : List NodeEntry) (p : Int × List TransferDetail)
    (e : EdgeStep) : (Backend.summarizeStep nodes p e).1 = p.1 + e.duration := by
  unfold Backend.summarizeStep
  dsimp only
  split_ifs <;> rfl

/-- A history of non-negative durations has a non-negative sum. -/
theorem sumDur_nonneg_of_nonneg (eh : List EdgeStep)
    (h : ∀ e ∈ eh, 0 ≤ e.duration) : 0 ≤ sumDur eh := by
  induction eh with
  | nil => simp [sumDur]
  | cons e eh ih =>
      have h1 := h e (List.mem_cons_self e eh)
      have h2 := ih fun e' he' => h e' (List.mem_cons_of_mem e he')
      simp only [sumDur, List.map_cons, List.sum_cons] at h2 ⊢
      omega

/-- The two timeline walks coincide on non-negative start times and
non-negative durations. -/
theorem summarize_fold_equiv (nodes : List NodeEntry) :
    ∀ (eh : List EdgeStep) (t0 : Int) (ds : List TransferDetail),
      0 ≤ t0 → (∀ e ∈ eh, 0 ≤ e.duration) →
      eh.foldl (Frontend.summarizeStep nodes) (t0, ds) =
        eh.foldl (Backend.summarizeStep nodes) (t0, ds) := by
  intro eh
  induction eh with
  | nil => intro t0 ds _ _; rfl
  | cons e eh ih =>
      intro t0 ds ht0 hd
      have hde : 0 ≤ e.duration := hd e (List.mem_cons_self e eh)
      have hstep : Frontend.summarizeStep nodes (t0, ds) e =
          Backend.summarizeStep nodes (t0, ds) e := by
        unfold Frontend.summarizeStep Backend.summarizeStep
        dsimp only
        rw [toTime_frontend_eq t0 ht0, toTime_frontend_eq (t0 + e.duration) (by omega)]
      rw [List.foldl_cons, List.foldl_cons, hstep]
      rcases hres : Backend.summarizeStep nodes (t0, ds) e with ⟨t1, ds1⟩
      have ht1 : t1 = t0 + e.duration := by
        have hfst := congrArg Prod.fst hres
        rw [summarizeStep_fst] at hfst
        simpa using hfst.symm
      exact ih t1 ds1 (by omega) (fun e' he' => hd e' (List.mem_cons_of_mem e he'))

/-- The two summary builders coincide on non-negative times and
durations. -/
theorem summarizePath_frontend_eq (nodes : List NodeEntry) (eh : List EdgeStep)
    (tseq : List String) (st et : Int) (trainInfo : TrainInfoMap)
    (hst : 0 ≤ st) (het : 0 ≤ et) (hd : ∀ e ∈ eh, 0 ≤ e.duration) :
    Frontend.summarizePath nodes eh tseq st et trainInfo =
      Backend.summarizePath nodes eh tseq st et trainInfo := by
  unfold Frontend.summarizePath Backend.summarizePath
  rw [summarize_fold_equiv nodes eh st [] hst hd]
  dsimp only
  have hacc : (eh.foldl (Backend.summarizeStep nodes) (st, [])).1 = st + sumDur eh :=
    summarize_foldl_fst nodes eh st []
  have hnn : 0 ≤ sumDur eh := sumDur_nonneg_of_nonneg eh hd
  have htl : 0 ≤ if (eh.foldl (Backend.summarizeStep nodes) (st, [])).1 ≠ et then et
      else (eh.foldl (Backend.summarizeStep nodes) (st, [])).1 := by
    split_ifs
    · exact het
    · rw [hacc]; omega
  rw [toTime_frontend_eq st hst, toTime_frontend_eq _ htl]
  rfl

/-- `flatMap` respects pointwise-equal-on-members functions. -/
theorem flatMap_congr_mem {α β : Type} (l : List α) (f g : α → List β)
    (h : ∀ a ∈ l, f a = g a) : l.flatMap f = l.flatMap g := by
  induction l with
  | nil => rfl
  | cons a l ih =>
      simp only [List.flatMap_cons]
      rw [h a (List.mem_cons_self a l), ih fun a' ha' => h a' (List.mem_cons_of_mem a ha')]

/-- The two DFS closures coincide on graphs whose nodes carry non-empty
station and train names and whose adjacency targets are in range, from any
reachable state. -/
theorem dfs_equiv (nodes : List NodeEntry) (adjacency : List (List AdjEdge))
    (endStation : String) (trainInfo : TrainInfoMap) (directionMap : Option DirMap)
    (maxTransfers : Int) (allowSame : Bool)
    (htr : ∀ n ∈ nodes, n.train ≠ "")
    (hstn : ∀ n ∈ nodes, n.station ≠ "")
    (hadj : ∀ i, ∀ e ∈ adjacency.getD i [], e.toIdx < nodes.length) :
    ∀ fuel i t tr path eh tseq st lts,
      i < nodes.length →
      0 ≤ st → 0 ≤ t →
      (∀ e ∈ eh, 0 ≤ e.duration) →
      tseq ≠ [] →
      tseq.getLastD "" ≠ "" →
      (lts = none ∨ ∃ s, lts = some s ∧ s ≠ "") →
      Frontend.dfs nodes adjacency endStation trainInfo directionMap maxTransfers allowSame
          fuel i t tr path eh tseq st lts =
        Backend.dfs nodes adjacency endStation trainInfo directionMap maxTransfers allowSame
          fuel i t tr path eh tseq st lts := by
  intro fuel
  induction fuel with
  | zero => intro i t tr path eh tseq st lts _ _ _ _ _ _ _; rfl
  | succ fuel ih =>
      intro i t tr path eh tseq st lts hi hst0 ht0 hdur hne hlast hlts
      rw [Frontend.dfs, Backend.dfs]
      dsimp only
      by_cases hdest : (nodes.getD i default).station = endStation ∧ eh ≠ []
      · rw [if_pos hdest, if_pos hdest,
          summarizePath_frontend_eq nodes eh tseq st t trainInfo hst0 ht0 hdur]
      · rw [if_neg hdest, if_neg hdest]
        apply flatMap_congr_mem
        intro edge hedge
        dsimp only
        have hjs : (lts ≠ none) = (jsTruthyStr lts = true) := by
          rcases hlts with h | ⟨s, h, hs⟩
          · subst h
            simp [jsTruthyStr]
          · subst h
            simp [jsTruthyStr, hs]
        simp only [hjs, if_pos hne]
        by_cases hc1 : path.contains edge.toIdx = true
        · rw [if_pos hc1, if_pos hc1]
        · rw [if_neg hc1, if_neg hc1]
          by_cases hc2 : edge.duration ≤ 0
          · rw [if_pos hc2, if_pos hc2]
          · rw [if_neg hc2, if_neg hc2]
            by_cases hc3 : (edge.type = "transfer" ∨
                  (nodes.getD edge.toIdx default).train ≠ (nodes.getD i default).train) ∧
                allowSame = false ∧ jsTruthyStr lts = true ∧
                (if edge.type = "transfer" ∨
                    (nodes.getD edge.toIdx default).train ≠ (nodes.getD i default).train then
                  some (nodes.getD i default).station else none) = lts
            · rw [if_pos hc3, if_pos hc3]
            · rw [if_neg hc3, if_neg hc3]
              by_cases hc4 : ((if edge.type = "transfer" ∨
                    (nodes.getD edge.toIdx default).train ≠ (nodes.getD i default).train then
                  tr + 1 else tr : Nat) : Int) > maxTransfers
              · rw [if_pos hc4, if_pos hc4]
              · rw [if_neg hc4, if_neg hc4]
                have hlt : edge.toIdx < nodes.length := hadj i edge hedge
                have hmemN : nodes.getD edge.toIdx default ∈ nodes := by
                  simp only [List.getD, List.get?_eq_getElem?,
                    List.getElem?_eq_getElem hlt, Option.getD_some]
                  exact nodes.getElem_mem hlt
                have hmemI : nodes.getD i default ∈ nodes := by
                  simp only [List.getD, List.get?_eq_getElem?,
                    List.getElem?_eq_getElem hi, Option.getD_some]
                  exact nodes.getElem_mem hi
                have hdur' : ∀ e' ∈ eh ++ [EdgeStep.mk i edge.toIdx edge.type edge.duration],
                    0 ≤ e'.duration := by
                  intro e' he'
                  rcases List.mem_append.mp he' with hm | hm
                  · exact hdur e' hm
                  · rw [List.mem_singleton] at hm
                    subst hm
                    show (0 : Int) ≤ edge.duration
                    omega
                have hlts' : (if edge.type = "transfer" ∨
                      (nodes.getD edge.toIdx default).train ≠ (nodes.getD i default).train then
                    (if edge.type = "transfer" ∨
                        (nodes.getD edge.toIdx default).train ≠ (nodes.getD i default).train then
                      some (nodes.getD i default).station else none)
                    else lts) = none ∨
                    ∃ s, (if edge.type = "transfer" ∨
                        (nodes.getD edge.toIdx default).train ≠ (nodes.getD i default).train then
                      (if edge.type = "transfer" ∨
                          (nodes.getD edge.toIdx default).train ≠ (nodes.getD i default).train then
                        some (nodes.getD i default).station else none)
                      else lts) = some s ∧ s ≠ "" := by
                  by_cases hitn : edge.type = "transfer" ∨
                      (nodes.getD edge.toIdx default).train ≠ (nodes.getD i default).train
                  · simp only [if_pos hitn]
                    exact Or.inr ⟨(nodes.getD i default).station, rfl, hstn _ hmemI⟩
                  · simp only [if_neg hitn]
                    exact hlts
                simp only [decide_eq_true_eq]
                by_cases hnt : (nodes.getD edge.toIdx default).train = tseq.getLastD ""
                · have hff : ¬ (tseq.getLastD "" = "" ∨
                      (nodes.getD edge.toIdx default).train ≠ tseq.getLastD "") :=
                    fun h => h.elim hlast fun h' => h' hnt
                  rw [if_neg hff, if_pos hnt]
                  exact ih _ _ _ _ _ _ _ _ hlt hst0 (by omega) hdur' hne hlast hlts'
                · rw [if_pos (Or.inr hnt), if_neg hnt]
                  refine ih _ _ _ _ _ _ _ _ hlt hst0 (by omega) hdur' (by simp) ?_ hlts'
                  rw [List.getLastD_concat]
                  exact htr _ hmemN



/-- Writing the slot just past a list extended by one empty row appends the
written value. -/
theorem set_concat (l : List (List TransferDetail)) (a b : List TransferDetail) :
    (l ++ [a]).set l.length b = l ++ [b] := by
  induction l with
  | nil => rfl
  | cons x xs ih => simp [ih]

/-- The two dedup-push implementations agree on every input. -/
theorem addOption_equiv (ls : List (List TransferDetail)) (idx : Nat) (d : TransferDetail) :
    Frontend.addOption ls idx d = Backend.addOption ls idx d := by
  unfold Frontend.addOption Backend.addOption
  dsimp only
  rcases lt_trichotomy idx ls.length with h | h | h
  · rw [show (if ls.length ≤ idx then ls ++ [[]] else ls) = ls from if_neg (by omega)]
    rw [List.get?_eq_get h]
  · subst h
    rw [show (if ls.length ≤ ls.length then ls ++ [[]] else ls) = ls ++ [[]] from
      if_pos (le_refl _)]
    rw [List.get?_concat_length, List.get?_eq_none.mpr (le_refl _)]
    dsimp only
    rw [if_pos rfl, set_concat]
    simp
  · rw [show (if ls.length ≤ idx then ls ++ [[]] else ls) = ls ++ [[]] from if_pos (by omega)]
    have h1 : (ls ++ [[]]).get? idx = none := by
      rw [List.get?_eq_none]
      simp
      omega
    have h2 : ls.get? idx = none := by
      rw [List.get?_eq_none]
      omega
    rw [h1, h2]
    dsimp only
    rw [if_neg (by omega)]

/-- The two dedup-push folds agree on every input. -/
theorem addOptions_equiv (ls : List (List TransferDetail)) (details : List TransferDetail) :
    Frontend.addOptions ls details = Backend.addOptions ls details := by
  unfold Frontend.addOptions Backend.addOptions
  have hf : (fun (ls : List (List TransferDetail)) (p : Nat × TransferDetail) =>
        Frontend.addOption ls p.1 p.2) =
      fun ls p => Backend.addOption ls p.1 p.2 :=
    funext fun ls => funext fun p => addOption_equiv ls p.1 p.2
  rw [hf]

/-- The two grouping steps agree on a well-formed entry from an invariant
state. -/
theorem mergeStep_equiv (st : List MergeGroup) (p : PathSummary) (hinv : MergeInv st)
    (hwf : p.transfer_count = p.transfer_details.length) :
    Frontend.mergeStep st p = Backend.mergeStep st p := by
  obtain ⟨hnd, hgs⟩ := hinv
  have heq := effTransferCount_of_wf p hwf
  have heff : Frontend.effTransferCount p = Backend.effTransferCount p := by
    rw [heq]
    rfl
  have hkey : Frontend.keyOf p = Backend.keyOf p := by
    unfold Frontend.keyOf Backend.keyOf
    rw [heff]
  unfold Frontend.mergeStep Backend.mergeStep
  dsimp only
  rw [heff, hkey]
  cases hlk : lookupGroup st (Backend.keyOf p) with
  | none => rfl
  | some v =>
      obtain ⟨base, scratch⟩ := v
      dsimp only
      by_cases h0 : Backend.effTransferCount p = 0
      · rw [if_pos h0, if_pos h0]
      · rw [if_neg h0, if_neg h0]
        have hdl : p.transfer_details ≠ [] := by
          intro hc
          rw [heq, hwf, hc] at h0
          exact h0 rfl
        have hg := lookupGroup_eq_some st (Backend.keyOf p) (base, scratch) hlk
        obtain ⟨hk1, hwfb, hiff, hrows⟩ := hgs _ hg
        dsimp only at hk1 hiff
        have heffb : Backend.effTransferCount base = Backend.effTransferCount p := by
          have hck := congrArg MergeKey.transferCount hk1
          rw [keyOf_transferCount] at hck
          exact hck.symm
        have hscr : scratch ≠ none := by
          intro hc
          rw [hiff] at hc
          rw [heffb] at hc
          exact h0 hc
        obtain ⟨ol0, rfl⟩ := Option.ne_none_iff_exists'.mp hscr
        simp only [Option.getD_some]
        cases hdt : p.transfer_details with
        | nil => exact absurd hdt hdl
        | cons d ds =>
            rw [addOptions_equiv]

/-- The two grouping loops agree on well-formed inputs from an invariant
state. -/
theorem mergeLoop_equiv (ps : List PathSummary) :
    ∀ st : List MergeGroup, MergeInv st →
      (∀ p ∈ ps, p.transfer_count = p.transfer_details.length) →
      List.foldlM Frontend.mergeStep st ps = List.foldlM Backend.mergeStep st ps := by
  induction ps with
  | nil => intro st _ _; rfl
  | cons p ps ih =>
      intro st hinv hwf
      have hpw := hwf p (List.mem_cons_self p ps)
      obtain ⟨st1, hst1, hinv1, -⟩ := mergeStep_wf st p hinv hpw
      rw [List.foldlM_cons, List.foldlM_cons, mergeStep_equiv st p ⟨hinv.1, hinv.2⟩ hpw, hst1]
      exact ih st1 hinv1 (fun q hq => hwf q (List.mem_cons_of_mem p hq))

/-- The two output passes agree on a group whose scratch rows are all
non-empty. -/
theorem finalizeGroup_equiv (g : MergeGroup)
    (hrows : ∀ ls, g.2.2 = some ls → ∀ l ∈ ls, l ≠ []) :
    Frontend.finalizeGroup g = Backend.finalizeGroup g := by
  unfold Frontend.finalizeGroup Backend.finalizeGroup
  cases hscr : g.2.2 with
  | none => rfl
  | some ol =>
      dsimp only
      have hne := hrows ol hscr
      have h1 : (ol.enum.map fun p => TransferOption.mk (p.1 + 1) p.2).filter
          (fun o => o.options ≠ []) = ol.enum.map fun p => TransferOption.mk (p.1 + 1) p.2 := by
        rw [List.filter_eq_self]
        intro o ho
        rcases List.mem_map.mp ho with ⟨q, hq, rfl⟩
        simpa using hne _ (enum_snd_mem hq)
      have h2 : ol.filter (fun l => l ≠ []) = ol := by
        rw [List.filter_eq_self]
        intro l hl
        simpa using hne l hl
      rw [h1, h2]

/-- The two merge stages agree on well-formed inputs, and the backend
stage succeeds on them. -/
theorem mergePaths_equiv (ps : List PathSummary)
    (hwf : ∀ p ∈ ps, p.transfer_count = p.transfer_details.length) :
    Frontend.mergePathsByTrainSequence ps = Backend.mergePathsByTrainSequence ps ∧
      ∃ out, Backend.mergePathsByTrainSequence ps = some out := by
  have hinv0 : MergeInv ([] : List MergeGroup) := ⟨by simp, by simp⟩
  obtain ⟨st', hst', hinv'⟩ := mergeLoop_wf ps [] hinv0 hwf
  have hloop := mergeLoop_equiv ps [] hinv0 hwf
  unfold Frontend.mergePathsByTrainSequence Backend.mergePathsByTrainSequence
  rw [hloop, hst']
  constructor
  · have hmap : st'.map Frontend.finalizeGroup = st'.map Backend.finalizeGroup := by
      apply List.map_congr_left
      intro g hg
      exact finalizeGroup_equiv g (fun ls hls => ((hinv'.2 g hg).2.2.2 ls hls).2)
    rw [Option.map_some', Option.map_some', hmap]
  · exact ⟨st'.map Backend.finalizeGroup, rfl⟩

/-- The position of an enumerated element is an index into the list. -/
theorem enum_fst_lt {α : Type} {l : List α} {p : Nat × α} (hp : p ∈ l.enum) :
    p.1 < l.length := by
  rw [List.enum_eq_zip_range] at hp
  have h := (List.of_mem_zip (show (p.1, p.2) ∈ _ from hp)).1
  simpa using h

/-- The two enumerators coincide on graphs whose nodes carry non-empty
station and train names and whose adjacency targets are in range. -/
theorem findAllPaths_equiv (nodes : List NodeEntry) (adjacency : List (List AdjEdge))
    (startStation endStation : String) (trainInfo : TrainInfoMap)
    (directionMap : Option DirMap) (maxTransfers : Int) (allowSame : Bool)
    (htr : ∀ n ∈ nodes, n.train ≠ "")
    (hstn : ∀ n ∈ nodes, n.station ≠ "")
    (hadj : ∀ i, ∀ e ∈ adjacency.getD i [], e.toIdx < nodes.length) :
    Frontend.findAllPaths nodes adjacency startStation endStation trainInfo directionMap
        maxTransfers allowSame =
      Backend.findAllPaths nodes adjacency startStation endStation trainInfo directionMap
        maxTransfers allowSame := by
  unfold Frontend.findAllPaths Backend.findAllPaths
  dsimp only
  simp only [Frontend.parseTime]
  by_cases hsn : ((nodes.enum.filter fun p => p.2.station = startStation).map (·.1)) = []
  · rw [if_pos hsn, if_pos hsn]
  · rw [if_neg hsn, if_neg hsn]
    congr 1
    congr 1
    apply flatMap_congr_mem
    intro startIdx hstart
    dsimp only
    obtain ⟨q, hq, hqf⟩ := List.mem_map.mp hstart
    have hlt : startIdx < nodes.length := by
      rw [← hqf]
      exact enum_fst_lt (List.mem_of_mem_filter hq)
    have hmemI : nodes.getD startIdx default ∈ nodes := by
      simp only [List.getD, List.get?_eq_getElem?, List.getElem?_eq_getElem hlt,
        Option.getD_some]
      exact nodes.getElem_mem hlt
    exact dfs_equiv nodes adjacency endStation trainInfo directionMap maxTransfers allowSame
      htr hstn hadj (nodes.length + 1) startIdx _ 0 [startIdx] []
      [(nodes.getD startIdx default).train] _ none hlt (parseTime_nonneg _)
      (parseTime_nonneg _) (by simp) (by simp) (by simpa using htr _ hmemI) (Or.inl rfl)


/-- Every summary returned by the backend enumerator is well-formed: its
transfer count equals its number of transfer detail records. -/
theorem findAllPaths_wf (nodes : List NodeEntry) (adjacency : List (List AdjEdge))
    (startStation endStation : String) (trainInfo : TrainInfoMap)
    (directionMap : Option DirMap) (maxTransfers : Int) (allowSame : Bool) :
    ∀ s ∈ Backend.findAllPaths nodes adjacency startStation endStation trainInfo
        directionMap maxTransfers allowSame,
      s.transfer_count = s.transfer_details.length := by
  intro s hs
  obtain ⟨k, eh, tseq, st, hst, hne, hlen, hok, hseq, -⟩ :=
    findAllPaths_emitted nodes adjacency startStation endStation trainInfo directionMap
      maxTransfers allowSame s hs
  obtain ⟨-, -, -, hTC, hTD, -⟩ :=
    summarizePath_fields nodes eh tseq st trainInfo (edgeOk_pos adjacency eh hok)
  subst hseq
  show (Backend.summarizePath nodes eh tseq st (st + sumDur eh) trainInfo).transfer_count =
    (Backend.summarizePath nodes eh tseq st (st + sumDur eh)
      trainInfo).transfer_details.length
  rw [hTC, hTD]

/-- C10. The spec claims the backend JavaScript implementation and the
TypeScript port are extensionally equivalent on every input; the
counterexample `c10_counterexample_empty_train_id` refutes the universal
form (an empty train id is falsy in the port's last-train test, changing
the produced train sequences).  Amended equivalence: on graphs whose nodes
carry non-empty station and train names and whose adjacency targets are in
range — the shape `DataService.buildAdjacencyList` produces from real
data — `findAllPaths` followed by `mergePathsByTrainSequence` yields
identical results in both implementations, and the backend merge stage
always succeeds on enumerator output. -/
theorem c10_pipeline_equiv (nodes : List NodeEntry) (adjacency : List (List AdjEdge))
    (startStation endStation : String) (trainInfo : TrainInfoMap)
    (directionMap : Option DirMap) (maxTransfers : Int) (allowSame : Bool)
    (htr : ∀ n ∈ nodes, n.train ≠ "")
    (hstn : ∀ n ∈ nodes, n.station ≠ "")
    (hadj : ∀ l ∈ adjacency, ∀ e ∈ l, e.toIdx < nodes.length) :
    Frontend.mergePathsByTrainSequence
        (Frontend.findAllPaths nodes adjacency startStation endStation trainInfo
          directionMap maxTransfers allowSame) =
      Backend.mergePathsByTrainSequence
        (Backend.findAllPaths nodes adjacency startStation endStation trainInfo
          directionMap maxTransfers allowSame) ∧
      ∃ out, Backend.mergePathsByTrainSequence
        (Backend.findAllPaths nodes adjacency startStation endStation trainInfo
          directionMap maxTransfers allowSame) = some out := by
  have hadj2 : ∀ i, ∀ e ∈ adjacency.getD i [], e.toIdx < nodes.length := by
    intro i e he
    by_cases hi : i < adjacency.length
    · have hgi : adjacency.getD i [] = adjacency[i] := by
        simp only [List.getD, List.get?_eq_getElem?, List.getElem?_eq_getElem hi,
          Option.getD_some]
      rw [hgi] at he
      exact hadj _ (adjacency.getElem_mem hi) e he
    · rw [List.getD_eq_default] at he
      · exact absurd he (List.not_mem_nil e)
      · omega
  have hfap := findAllPaths_equiv nodes adjacency startStation endStation trainInfo
    directionMap maxTransfers allowSame htr hstn hadj2
  have hwf := findAllPaths_wf nodes adjacency startStation endStation trainInfo
    directionMap maxTransfers allowSame
  obtain ⟨hmerge, out, hout⟩ := mergePaths_equiv _ hwf
  exact ⟨by rw [hfap, hmerge], out, hout⟩

/-- Witness for C10 on the scenario-B example graph, all hypotheses
discharged by computation. -/
theorem c10_pipeline_equiv_witness :
    (∀ n ∈ exNodes, n.train ≠ "") ∧ (∀ n ∈ exNodes, n.station ≠ "") ∧
      (∀ l ∈ exAdj, ∀ e ∈ l, e.toIdx < exNodes.length) ∧
      (Frontend.mergePathsByTrainSequence
          (Frontend.findAllPaths exNodes exAdj "X" "Z" exTrainInfo (some exDirMap) 2 false) =
        Backend.mergePathsByTrainSequence
          (Backend.findAllPaths exNodes exAdj "X" "Z" exTrainInfo (some exDirMap) 2 false) ∧
        ∃ out, Backend.mergePathsByTrainSequence
          (Backend.findAllPaths exNodes exAdj "X" "Z" exTrainInfo (some exDirMap) 2 false) =
            some out) :=
  ⟨by decide, by decide, by decide,
    c10_pipeline_equiv exNodes exAdj "X" "Z" exTrainInfo (some exDirMap) 2 false
      (by decide) (by decide) (by decide)⟩

end MetroPlan
